import Mathlib

/-!
Shallow embedding of the pygame bitmap-font library
(`pgbitmapfont/__init__.py`, `pgbitmapfont/bitmapfont_fixed_height.py`,
`pgbitmapfont/bitmapfont_free_dims.py`).

File I/O (descriptor reading, image decoding) happens before the code that
is modelled here: a constructor is embedded as a function of the already
loaded JSON data (a record of optional fields) and the already loaded atlas
image (a `Surface` value).  Machine arithmetic is made explicit: Python
`int` is `ℤ`, Python `float` is a rational together with an explicit
binary64 round-to-nearest-even rounding function (normal range only),
and every operation that can raise a Python exception returns `Except`.
-/

/-! ## Python binary64 float model

Python's `size / font_height` is IEEE-754 binary64 true division and
`int(font_height * scale)` multiplies (converting the int operand to
binary64 first) and truncates toward zero.  We model a binary64 value in
the normal range as the exact rational it denotes, and rounding as
round-to-nearest-even at 53 bits of precision.  Overflow and subnormals
are outside the model (the exponent search uses fuel covering exponents
up to ±1200, beyond binary64's own normal range ±1022). -/

/-- Powers of two as rationals, computable without `zpow`. -/
def pow2 (e : ℤ) : ℚ :=
  if 0 ≤ e then ((2 ^ e.toNat : ℕ) : ℚ) else 1 / ((2 ^ (-e).toNat : ℕ) : ℚ)

/-- Truncation toward zero, Python's `int()` on a float. -/
def ratTrunc (q : ℚ) : ℤ :=
  if 0 ≤ q then ⌊q⌋ else -⌊-q⌋

/-- Smallest `k' ≥ k` with `q < 2 ^ (k'+1)`, by fuel-bounded search. -/
def findExpUp (q : ℚ) : ℕ → ℕ → ℕ
  | 0, k => k
  | fuel + 1, k => if q < pow2 (k + 1) then k else findExpUp q fuel (k + 1)

/-- Smallest `m' ≥ m` with `1 ≤ q * 2 ^ m'`, by fuel-bounded search. -/
def findExpDown (q : ℚ) : ℕ → ℕ → ℕ
  | 0, m => m
  | fuel + 1, m => if 1 ≤ q * pow2 m then m else findExpDown q fuel (m + 1)

/-- Binary exponent of a positive rational: the `e` with `2^e ≤ q < 2^(e+1)`
(for `q` in the fuel-covered range `2^(-1200) ≤ q < 2^1201`). -/
def ratExp (q : ℚ) : ℤ :=
  if 1 ≤ q then (findExpUp q 1200 0 : ℤ) else -(findExpDown q 1200 0 : ℤ)

/-- Round a rational to the nearest integer, ties to even. -/
def roundHalfEven (r : ℚ) : ℤ :=
  let f := ⌊r⌋
  if r - f < 1 / 2 then f
  else if 1 / 2 < r - f then f + 1
  else if 2 ∣ f then f else f + 1

/-- Round a positive rational to 53 significant bits (binary64 mantissa). -/
def roundPos (q : ℚ) : ℚ :=
  let e := ratExp q
  (roundHalfEven (q * pow2 (52 - e)) : ℚ) * pow2 (e - 52)

/-- Round-to-nearest-even at binary64 precision (normal range). -/
def roundDouble (q : ℚ) : ℚ :=
  if q = 0 then 0
  else if q < 0 then -roundPos (-q)
  else roundPos q

/-! ### Facts about the rounding model -/

theorem pow2_eq_zpow (e : ℤ) : pow2 e = (2 : ℚ) ^ e := by
  unfold pow2
  split
  · push_cast
    rw [← zpow_natCast]
    congr 1
    omega
  · rw [one_div]
    push_cast
    rw [← zpow_natCast, ← zpow_neg]
    congr 1
    omega

theorem pow2_pos (e : ℤ) : 0 < pow2 e := by
  rw [pow2_eq_zpow]
  positivity

theorem findExpUp_spec (q : ℚ) (fuel k : ℕ) (hlo : pow2 k ≤ q)
    (hhi : q < pow2 (k + fuel + 1)) :
    pow2 (findExpUp q fuel k) ≤ q ∧ q < pow2 ((findExpUp q fuel k : ℤ) + 1) := by
  induction fuel generalizing k with
  | zero =>
      refine ⟨hlo, ?_⟩
      simpa using hhi
  | succ fuel ih =>
      rw [findExpUp]
      split
      · exact ⟨hlo, by exact_mod_cast (by assumption)⟩
      · refine ih (k + 1) ?_ ?_
        · push_cast
          exact le_of_not_lt (by exact_mod_cast (by assumption))
        · have harg : pow2 (((k + 1 : ℕ) : ℤ) + (fuel : ℤ) + 1)
              = pow2 ((k : ℤ) + ((fuel + 1 : ℕ) : ℤ) + 1) := by
            congr 1
            push_cast
            ring
          rw [harg]
          exact hhi

theorem findExpDown_spec (q : ℚ) (fuel m : ℕ)
    (hinv : ∀ j : ℕ, j < m → q * pow2 j < 1)
    (hfuel : 1 ≤ q * pow2 (m + fuel)) :
    1 ≤ q * pow2 (findExpDown q fuel m) ∧
      ∀ j : ℕ, j < findExpDown q fuel m → q * pow2 j < 1 := by
  induction fuel generalizing m with
  | zero =>
      rw [findExpDown]
      exact ⟨by simpa using hfuel, hinv⟩
  | succ fuel ih =>
      rw [findExpDown]
      split
      · exact ⟨by assumption, hinv⟩
      · refine ih (m + 1) ?_ ?_
        · intro j hj
          rcases Nat.lt_succ_iff_lt_or_eq.mp hj with h | h
          · exact hinv j h
          · subst h
            exact lt_of_not_le (by exact_mod_cast (by assumption))
        · have harg : q * pow2 (((m + 1 : ℕ) : ℤ) + (fuel : ℤ))
              = q * pow2 ((m : ℤ) + ((fuel + 1 : ℕ) : ℤ)) := by
            congr 2
            push_cast
            ring
          rw [harg]
          exact hfuel

/-- `q` is in the range of exponents the fuel-bounded search covers. -/
def InFloatRange (q : ℚ) : Prop := pow2 (-1200) ≤ q ∧ q < pow2 1201

theorem ratExp_spec (q : ℚ) (hq : 0 < q) (hr : InFloatRange q) :
    pow2 (ratExp q) ≤ q ∧ q < pow2 (ratExp q + 1) := by
  obtain ⟨hlo, hhi⟩ := hr
  unfold ratExp
  split
  · have h := findExpUp_spec q 1200 0 (by simpa [pow2] using (by assumption : (1:ℚ) ≤ q))
      (by simpa using hhi)
    exact h
  · have hq1 : q < 1 := lt_of_not_le (by assumption)
    have hfuel : 1 ≤ q * pow2 ((0 + 1200 : ℕ) : ℤ) := by
      rw [pow2_eq_zpow] at hlo ⊢
      have h2 : (0:ℚ) < (2:ℚ) ^ (1200 : ℤ) := by positivity
      have hm := mul_le_mul_of_nonneg_right hlo (le_of_lt h2)
      calc (1:ℚ) = (2:ℚ) ^ (-1200 : ℤ) * (2:ℚ) ^ (1200 : ℤ) := by
            rw [← zpow_add₀ (by norm_num : (2:ℚ) ≠ 0)]; norm_num
        _ ≤ q * (2:ℚ) ^ (1200 : ℤ) := hm
        _ = q * (2:ℚ) ^ ((0 + 1200 : ℕ) : ℤ) := by norm_num
    obtain ⟨h1, h2⟩ := findExpDown_spec q 1200 0 (by omega) hfuel
    set r := findExpDown q 1200 0 with hr
    have hp : ∀ e : ℤ, (0:ℚ) < (2:ℚ) ^ e := fun e => by positivity
    constructor
    · rw [pow2_eq_zpow, zpow_neg, inv_eq_one_div, div_le_iff₀ (hp r)]
      rw [pow2_eq_zpow] at h1
      linarith
    · rcases Nat.eq_zero_or_pos r with h0 | hrpos
      · rw [h0]
        rw [pow2_eq_zpow]
        norm_num
        linarith
      · have hj := h2 (r - 1) (by omega)
        rw [pow2_eq_zpow] at hj
        rw [pow2_eq_zpow]
        have hcast : ((r - 1 : ℕ) : ℤ) = (r : ℤ) - 1 := by
          push_cast [Nat.cast_sub hrpos]
          ring
        rw [hcast] at hj
        rw [show (-(r:ℤ) + 1) = -((r:ℤ) - 1) by ring, zpow_neg, inv_eq_one_div,
          lt_div_iff₀ (hp _)]
        linarith

theorem ratExp_unique (q : ℚ) (e : ℤ) (hq : 0 < q) (hr : InFloatRange q)
    (hlo : pow2 e ≤ q) (hhi : q < pow2 (e + 1)) : ratExp q = e := by
  obtain ⟨h1, h2⟩ := ratExp_spec q hq hr
  by_contra hne
  have hmono : ∀ a b : ℤ, a ≤ b → pow2 a ≤ pow2 b := by
    intro a b hab
    rw [pow2_eq_zpow, pow2_eq_zpow]
    exact zpow_le_zpow_right₀ (by norm_num) hab
  rcases lt_or_gt_of_ne hne with h | h
  · have := hmono (ratExp q + 1) e (by omega)
    linarith
  · have := hmono (e + 1) (ratExp q) (by omega)
    linarith

theorem pow2_mono (a b : ℤ) (hab : a ≤ b) : pow2 a ≤ pow2 b := by
  rw [pow2_eq_zpow, pow2_eq_zpow]
  exact zpow_le_zpow_right₀ (by norm_num) hab

/-- Sufficient condition for being in the modelled exponent range. -/
theorem inFloatRange_of (q : ℚ) (h1 : 1 / 288230376151711744 ≤ q)
    (h2 : q < 288230376151711744) : InFloatRange q := by
  constructor
  · refine le_trans (pow2_mono (-1200) (-58) (by norm_num)) ?_
    rw [show pow2 (-58) = 1 / (288230376151711744 : ℚ) from by norm_num [pow2, Int.toNat]]
    exact h1
  · refine lt_of_lt_of_le (lt_of_lt_of_le h2 ?_) (pow2_mono 58 1201 (by norm_num))
    rw [show pow2 58 = (288230376151711744 : ℚ) from by norm_num [pow2, Int.toNat]]

theorem roundHalfEven_intCast (n : ℤ) : roundHalfEven ((n : ℤ) : ℚ) = n := by
  simp [roundHalfEven]

/-- A dyadic rational with at most 53 mantissa bits is a fixed point of the
binary64 rounding (for exponents inside the modelled range). -/
theorem roundPos_fix (a : ℕ) (b : ℤ) (ha0 : 0 < a) (ha : (a : ℚ) < pow2 53)
    (hb1 : -1150 ≤ b) (hb2 : b ≤ 1100) :
    roundPos ((a : ℚ) * pow2 b) = (a : ℚ) * pow2 b := by
  set q : ℚ := (a : ℚ) * pow2 b with hqdef
  have ha1 : (1 : ℚ) ≤ (a : ℚ) := by exact_mod_cast ha0
  have hq : 0 < q := mul_pos (by linarith) (pow2_pos b)
  have hmono : ∀ x y : ℤ, x ≤ y → pow2 x ≤ pow2 y := by
    intro x y hxy
    rw [pow2_eq_zpow, pow2_eq_zpow]
    exact zpow_le_zpow_right₀ (by norm_num) hxy
  have hpowmul : ∀ x y : ℤ, pow2 x * pow2 y = pow2 (x + y) := by
    intro x y
    rw [pow2_eq_zpow, pow2_eq_zpow, pow2_eq_zpow,
      ← zpow_add₀ (by norm_num : (2:ℚ) ≠ 0)]
  have hqlo : pow2 b ≤ q := by
    have := mul_le_mul_of_nonneg_right ha1 (le_of_lt (pow2_pos b))
    simpa [hqdef] using this
  have hqhi : q < pow2 (53 + b) := by
    have := mul_lt_mul_of_pos_right ha (pow2_pos b)
    calc q < pow2 53 * pow2 b := this
      _ = pow2 (53 + b) := hpowmul 53 b
  have hrange : InFloatRange q := by
    constructor
    · exact le_trans (hmono (-1200) b (by omega)) hqlo
    · exact lt_of_lt_of_le hqhi (hmono (53 + b) 1201 (by omega))
  obtain ⟨he1, he2⟩ := ratExp_spec q hq hrange
  set e := ratExp q with hedef
  -- the mantissa exponent is nonnegative: e ≤ b + 52
  have heb : e ≤ b + 52 := by
    by_contra hcon
    have h1 : pow2 (53 + b) ≤ pow2 e := hmono (53 + b) e (by omega)
    linarith
  -- the scaled value is the integer a * 2 ^ (b + 52 - e)
  have hm : q * pow2 (52 - e) = ((a * 2 ^ (b + 52 - e).toNat : ℕ) : ℚ) := by
    push_cast
    rw [hqdef, mul_assoc, hpowmul b (52 - e)]
    congr 1
    have : ((2 : ℚ) ^ (b + 52 - e).toNat) = pow2 ((b + 52 - e).toNat : ℤ) := by
      rw [pow2_eq_zpow, zpow_natCast]
    rw [this]
    congr 1
    omega
  have hgoal : roundPos q
      = (roundHalfEven (q * pow2 (52 - ratExp q)) : ℚ) * pow2 (ratExp q - 52) := rfl
  rw [hgoal, ← hedef, hm]
  have : ((a * 2 ^ (b + 52 - e).toNat : ℕ) : ℚ) = (((a * 2 ^ (b + 52 - e).toNat : ℕ) : ℤ) : ℚ) := by
    push_cast
    ring
  rw [this, roundHalfEven_intCast]
  push_cast
  rw [mul_assoc]
  have : ((2 : ℚ) ^ (b + 52 - e).toNat) * pow2 (e - 52) = pow2 b := by
    have h1 : ((2 : ℚ) ^ (b + 52 - e).toNat) = pow2 ((b + 52 - e).toNat : ℤ) := by
      rw [pow2_eq_zpow, zpow_natCast]
    rw [h1, hpowmul]
    congr 1
    omega
  rw [this]

theorem roundDouble_fix (a : ℕ) (b : ℤ) (ha0 : 0 < a) (ha : (a : ℚ) < pow2 53)
    (hb1 : -1150 ≤ b) (hb2 : b ≤ 1100) :
    roundDouble ((a : ℚ) * pow2 b) = (a : ℚ) * pow2 b := by
  have hq : 0 < (a : ℚ) * pow2 b :=
    mul_pos (by exact_mod_cast ha0) (pow2_pos b)
  unfold roundDouble
  rw [if_neg (by linarith), if_neg (by linarith)]
  exact roundPos_fix a b ha0 ha hb1 hb2

theorem roundDouble_natCast (a : ℕ) (ha0 : 0 < a) (ha : (a : ℚ) < pow2 53) :
    roundDouble (a : ℚ) = (a : ℚ) := by
  have h := roundDouble_fix a 0 ha0 ha (by norm_num) (by norm_num)
  have h1 : pow2 0 = 1 := by norm_num [pow2, Int.toNat]
  rw [h1, mul_one] at h
  exact h

theorem roundPos_eval (q : ℚ) (e : ℤ) (hq : 0 < q) (hr : InFloatRange q)
    (hlo : pow2 e ≤ q) (hhi : q < pow2 (e + 1)) :
    roundPos q = (roundHalfEven (q * pow2 (52 - e)) : ℚ) * pow2 (e - 52) := by
  have h : roundPos q
      = (roundHalfEven (q * pow2 (52 - ratExp q)) : ℚ) * pow2 (ratExp q - 52) := rfl
  rw [h, ratExp_unique q e hq hr hlo hhi]

theorem roundHalfEven_eq_floor (r : ℚ) (h2 : r - ⌊r⌋ < 1 / 2) :
    roundHalfEven r = ⌊r⌋ := by
  simp only [roundHalfEven]
  exact if_pos h2

/-! ## Python exceptions and the scale factor

`scale = 1 if size is None else size / font_height` makes `scale` a Python
`int` when `size` is `None` and a binary64 `float` otherwise; the two cases
behave differently under `int(v * scale)`, so the embedding keeps the tag. -/

inductive PyError where
  | assertionError
  | valueError
  | keyError
  | indexError
  | typeError
  | zeroDivisionError
  | pygameError
  | stopIteration
deriving DecidableEq, Repr

/-- Python value of `scale`: the int `1`, or a binary64 float. -/
inductive PyScale where
  | one : PyScale
  | flt (s : ℚ) : PyScale
deriving DecidableEq

/-- `scale = 1 if size is None else size / font_height` (true division;
division by zero raises `ZeroDivisionError`). -/
def pyScale (size : Option ℤ) (font_height : ℤ) : Except PyError PyScale :=
  match size with
  | none => .ok .one
  | some n =>
      if font_height = 0 then .error .zeroDivisionError
      else .ok (.flt (roundDouble ((n : ℚ) / (font_height : ℚ))))

/-- `int(v * scale)` for a Python int `v`: with `scale` the int `1` this is
exact; with a float scale, `v` is converted to binary64, the product is
rounded, and `int()` truncates toward zero. -/
def scaleMul (s : PyScale) (v : ℤ) : ℤ :=
  match s with
  | .one => v
  | .flt s => ratTrunc (roundDouble (roundDouble (v : ℚ) * s))

theorem scaleMul_one (v : ℤ) : scaleMul .one v = v := rfl

theorem pyScale_none (fh : ℤ) : pyScale none fh = .ok .one := rfl

/-! ### The binary64 drift at `49 * (1/49)`

`fl(1/49) = 5882252574524729 / 2^58` and `fl(49 * fl(1/49)) = (2^53 - 1) / 2^53 < 1`,
so `int(49 * (1/49))` is `0` in Python. -/

theorem roundDouble_inv49 :
    roundDouble ((1 : ℚ) / 49) = 5882252574524729 / 288230376151711744 := by
  have hq : (0 : ℚ) < 1 / 49 := by norm_num
  have hfloor : ⌊((1 : ℚ) / 49) * pow2 58⌋ = 5882252574524729 := by
    rw [show pow2 58 = (288230376151711744 : ℚ) from by norm_num [pow2, Int.toNat]]
    rw [Int.floor_eq_iff]
    constructor
    · norm_num
    · norm_num
  unfold roundDouble
  rw [if_neg (by norm_num), if_neg (by norm_num)]
  rw [roundPos_eval ((1 : ℚ) / 49) (-6) hq
      (inFloatRange_of _ (by norm_num) (by norm_num))
      (by norm_num [pow2, Int.toNat]) (by norm_num [pow2, Int.toNat])]
  rw [show (52 - (-6 : ℤ)) = 58 from by norm_num]
  rw [roundHalfEven_eq_floor _ (by
    rw [hfloor, show pow2 58 = (288230376151711744 : ℚ) from by norm_num [pow2, Int.toNat]]
    norm_num)]
  rw [hfloor, show ((-6 : ℤ) - 52) = -58 from by norm_num]
  rw [show pow2 (-58) = 1 / (288230376151711744 : ℚ) from by norm_num [pow2, Int.toNat]]
  norm_num

theorem roundDouble_product49 :
    roundDouble ((49 : ℚ) * (5882252574524729 / 288230376151711744))
      = 9007199254740991 / 9007199254740992 := by
  have hv : (49 : ℚ) * (5882252574524729 / 288230376151711744)
      = 288230376151711721 / 288230376151711744 := by norm_num
  have hq : (0 : ℚ) < 288230376151711721 / 288230376151711744 := by norm_num
  have hfloor : ⌊(288230376151711721 / 288230376151711744 : ℚ) * pow2 53⌋
      = 9007199254740991 := by
    rw [show pow2 53 = (9007199254740992 : ℚ) from by norm_num [pow2, Int.toNat]]
    rw [Int.floor_eq_iff]
    constructor
    · norm_num
    · norm_num
  rw [hv]
  unfold roundDouble
  rw [if_neg (by norm_num), if_neg (by norm_num)]
  rw [roundPos_eval _ (-1) hq
      (inFloatRange_of _ (by norm_num) (by norm_num))
      (by norm_num [pow2, Int.toNat]) (by norm_num [pow2, Int.toNat])]
  rw [show (52 - (-1 : ℤ)) = 53 from by norm_num]
  rw [roundHalfEven_eq_floor _ (by
    rw [hfloor, show pow2 53 = (9007199254740992 : ℚ) from by norm_num [pow2, Int.toNat]]
    norm_num)]
  rw [hfloor, show ((-1 : ℤ) - 52) = -53 from by norm_num]
  rw [show pow2 (-53) = 1 / (9007199254740992 : ℚ) from by norm_num [pow2, Int.toNat]]
  norm_num

theorem scaleMul_flt (s : ℚ) (v : ℤ) :
    scaleMul (.flt s) v = ratTrunc (roundDouble (roundDouble (v : ℚ) * s)) := rfl

/-- The Python computation `int(49 * (1/49))` evaluates to `0`, not `1`. -/
theorem scaleMul_inv49 :
    scaleMul (.flt (roundDouble ((1 : ℚ) / 49))) 49 = 0 := by
  rw [scaleMul_flt, roundDouble_inv49]
  rw [show (((49 : ℤ) : ℚ)) = ((49 : ℕ) : ℚ) from by norm_cast]
  rw [roundDouble_natCast 49 (by norm_num) (by norm_num [pow2, Int.toNat])]
  rw [show ((49 : ℕ) : ℚ) = (49 : ℚ) from by norm_cast]
  rw [roundDouble_product49]
  unfold ratTrunc
  rw [if_pos (by norm_num)]
  rw [Int.floor_eq_iff]
  constructor
  · norm_num
  · norm_num

/-! ## Surfaces, colors, rectangles, glyph tables

A `pygame.Surface` is modelled as dimensions, a pixel function, and an
optional colorkey.  Colors are opaque values compared only for equality.
`pygame.transform.scale`'s resampling is modelled as nearest-neighbour;
no theorem below depends on resampled pixel values. -/

abbrev Color := ℕ

/-- Entry of the `characters` dict: `{x, y, width, height}` (Python ints). -/
structure Glyph where
  x : ℤ
  y : ℤ
  width : ℤ
  height : ℤ
deriving DecidableEq, Repr

/-- A `pygame.Rect`. -/
structure Rect where
  x : ℤ
  y : ℤ
  w : ℤ
  h : ℤ
deriving DecidableEq, Repr

structure Surface where
  w : ℤ
  h : ℤ
  px : ℤ → ℤ → Color
  colorkey : Option Color

/-- `pygame.Surface((w, h))`: fresh black surface, no colorkey; negative
dimensions raise `pygame.error`. -/
def Surface.make (w h : ℤ) : Except PyError Surface :=
  if 0 ≤ w ∧ 0 ≤ h then .ok ⟨w, h, fun _ _ => 0, none⟩ else .error .pygameError

def Surface.fill (s : Surface) (c : Color) : Surface := { s with px := fun _ _ => c }

def Surface.set_colorkey (s : Surface) (c : Color) : Surface := { s with colorkey := some c }

/-- `dest.blit(src, (dx, dy), area)`: copy the `area` rectangle of `src`
(whole of `src` when `area` is `None`) to position `(dx, dy)`, clipped to
both surfaces, skipping pixels equal to `src`'s colorkey. -/
def Surface.blit (dest src : Surface) (dx dy : ℤ) (area : Option Rect) : Surface :=
  let r := area.getD ⟨0, 0, src.w, src.h⟩
  { dest with px := fun x y =>
      let sx := r.x + (x - dx)
      let sy := r.y + (y - dy)
      if dx ≤ x ∧ x < dx + r.w ∧ dy ≤ y ∧ y < dy + r.h ∧
          0 ≤ x ∧ x < dest.w ∧ 0 ≤ y ∧ y < dest.h ∧
          0 ≤ sx ∧ sx < src.w ∧ 0 ≤ sy ∧ sy < src.h ∧
          src.colorkey ≠ some (src.px sx sy) then
        src.px sx sy
      else dest.px x y }

/-- `pygame.transform.scale(s, (w, h))` with nearest-neighbour resampling. -/
def Surface.scale (s : Surface) (w h : ℤ) : Surface :=
  { w := w, h := h,
    px := fun x y => s.px (x * s.w / w) (y * s.h / h),
    colorkey := s.colorkey }

/-- `color_swap(surf, old_color, new_color)` from `pgbitmapfont/__init__.py`:
a fresh surface is filled with `new_color`, `surf`'s colorkey is set to
`old_color`, and `surf` is blitted on top; the result carries no colorkey. -/
def color_swap (surf : Surface) (old_color new_color : Color) : Surface :=
  let img_copy : Surface := { w := surf.w, h := surf.h, px := fun _ _ => 0, colorkey := none }
  let img_copy := img_copy.fill new_color
  let surf := surf.set_colorkey old_color
  img_copy.blit surf 0 0 none

/-! ### Python dicts keyed by characters -/

abbrev CharDict := List (Char × Glyph)

def dictContains (d : CharDict) (c : Char) : Bool := d.any (fun p => p.1 = c)

def dictGet? (d : CharDict) (c : Char) : Option Glyph :=
  (d.find? (fun p => p.1 = c)).map Prod.snd

/-- Python dict assignment `d[c] = g`: overwrite in place, or append,
preserving insertion order. -/
def dictInsert (d : CharDict) (c : Char) (g : Glyph) : CharDict :=
  if dictContains d c then d.map (fun p => if p.1 = c then (c, g) else p)
  else d ++ [(c, g)]

def dictInsertMany (d : CharDict) (l : List (Char × Glyph)) : CharDict :=
  l.foldl (fun d p => dictInsert d p.1 p.2) d

/-! ## The parsed font descriptor

`load_font_data_from_file` and `load_font_image` are I/O (out of scope);
the embedding starts from the parsed JSON record with the atlas already
loaded as a `Surface`.  A missing optional field is `none`. -/

structure FontData where
  font_image : Option Surface
  font_color : Option Color
  colorkey : Option Color
  separator_color : Option Color
  character_order : Option (List String)
  chars : Option (List (Char × Glyph))

/-! ## Shared text-layout helpers

`_get_text_width`, `_substitute_unsuported_chars`, `_render_row` and
`get_rect` have textually identical bodies in `BitmapFontFixedHeight` and
`BitmapFontFreeDims`; they are embedded once and instantiated with each
class's fields. -/

/-- `sum([self.characters[char]['width'] for char in text])`; an unmapped
character raises `KeyError` (uncaught). -/
def sumCharWidths (characters : CharDict) : List Char → Except PyError ℤ
  | [] => .ok 0
  | c :: cs => do
      let g ← match dictGet? characters c with
        | some g => Except.ok g
        | none => Except.error PyError.keyError
      let rest ← sumCharWidths characters cs
      .ok (g.width + rest)

/-- `_get_text_width`: glyph widths plus `spacing[0] * len(text)`
(spacing charged once per character, trailing included). -/
def getTextWidth (characters : CharDict) (spacing0 : ℤ) (text : List Char) :
    Except PyError ℤ := do
  let s ← sumCharWidths characters text
  .ok (s + spacing0 * text.length)

/-- `_substitute_unsuported_chars`: map unmapped characters to `default_char`. -/
def substituteUnsupportedChars (characters : CharDict) (default_char : Char)
    (text : List Char) : List Char :=
  text.map (fun c => if dictContains characters c then c else default_char)

/-- `text.split('\n')`. -/
def splitRows (text : List Char) : List (List Char) :=
  text.splitOn (Char.ofNat 10)

/-- The blit loop of `_render_row`: `x_offset` advances by glyph width plus
horizontal spacing; a `KeyError` is caught and the character skipped. -/
def renderRowLoop (characters : CharDict) (spacing0 : ℤ) (font_img : Surface) :
    List Char → Surface → ℤ → Surface
  | [], surf, _ => surf
  | c :: cs, surf, x_offset =>
    match dictGet? characters c with
    | some g =>
        let surf := surf.blit font_img x_offset 0 (some ⟨g.x, g.y, g.width, g.height⟩)
        renderRowLoop characters spacing0 font_img cs surf (x_offset + g.width + spacing0)
    | none => renderRowLoop characters spacing0 font_img cs surf x_offset

/-- `_render_row`: substitute, allocate a `(textWidth, font_height)` surface,
fill with the colorkey, blit every character left to right. -/
def renderRow (characters : CharDict) (default_char : Char) (spacing0 : ℤ)
    (font_height : ℤ) (colorkey : Color) (font_img : Surface) (text : List Char) :
    Except PyError Surface := do
  let text := substituteUnsupportedChars characters default_char text
  let w ← getTextWidth characters spacing0 text
  let row_surf ← Surface.make w font_height
  let row_surf := row_surf.fill colorkey
  .ok (renderRowLoop characters spacing0 font_img text row_surf 0)

/-- `get_rect`: width is the max substituted-row width, height is
`(font_height + spacing[1]) * number_of_rows`. -/
def getRect (characters : CharDict) (default_char : Char) (spacing : ℤ × ℤ)
    (font_height : ℤ) (text : List Char) : Except PyError Rect := do
  let widths ← (splitRows text).mapM
    (fun row => getTextWidth characters spacing.1
      (substituteUnsupportedChars characters default_char row))
  let w ← match widths.max? with
    | some m => Except.ok m
    | none => Except.error PyError.valueError
  .ok ⟨0, 0, w, (font_height + spacing.2) * ((splitRows text).length : ℤ)⟩

/-- The alignment offset of a row (`//` is Python floor division); an
unrecognized token falls back to `LEFT`. -/
def alignOffset (align : String) (max_width row_width : ℤ) : ℤ :=
  if align = "LEFT" then 0
  else if align = "RIGHT" then max_width - row_width
  else if align = "CENTER" ∨ align = "CENTRE" then Int.fdiv (max_width - row_width) 2
  else 0

/-! ## BitmapFontFixedHeight (`bitmapfont_fixed_height.py`) -/

structure BitmapFontFixedHeight where
  font_height : ℤ
  font_img : Surface
  font_color : Color
  colorkey : Color
  spacing : ℤ × ℤ
  characters : CharDict
  default_char : Char

/-- The column scan of `BitmapFontFixedHeight.__init__` (lines 139-157):
walk the columns left to right; at a separator-colored row-0 pixel, record
`{x - current_char_width, 0, current_char_width, font_height}` (scaled) for
every character of `character_order[character_count]`, advance the count,
reset the width; otherwise count one more width pixel.  An out-of-range
`character_order[character_count]` raises `IndexError` (uncaught). -/
def scanColumns (px0 : ℕ → Color) (separator_color : Color)
    (character_order : List String) (scale : PyScale) (font_height : ℤ) :
    List ℕ → ℕ → ℕ → CharDict → Except PyError (CharDict × ℕ × ℕ)
  | [], character_count, current_char_width, d => .ok (d, character_count, current_char_width)
  | x :: xs, character_count, current_char_width, d =>
    if px0 x = separator_color then
      match character_order.get? character_count with
      | none => .error .indexError
      | some s =>
          let g : Glyph :=
            { x := scaleMul scale ((x : ℤ) - (current_char_width : ℤ))
              y := 0
              width := scaleMul scale (current_char_width : ℤ)
              height := scaleMul scale font_height }
          scanColumns px0 separator_color character_order scale font_height xs
            (character_count + 1) 0
            (dictInsertMany d (s.toList.map (fun c => (c, g))))
    else
      scanColumns px0 separator_color character_order scale font_height xs
        character_count (current_char_width + 1) d

/-- `BitmapFontFixedHeight.__init__` after I/O: validations in source order,
the column scan, the `default_char` fallback to `character_order[0][0]`,
the optional `color_swap`, and the atlas rescale. -/
def BitmapFontFixedHeight.init (font_data : FontData) (size : Option ℤ)
    (fgcolor : Option Color) (spacing : ℤ × ℤ) (default_char : Char) :
    Except PyError BitmapFontFixedHeight := do
  -- assert 'font_image' in font_data (caught, re-raised as ValueError)
  let font_img ← match font_data.font_image with
    | some s => Except.ok s
    | none => Except.error PyError.valueError
  -- assert ('font_color' in font_data and fgcolor) or not fgcolor (→ ValueError),
  -- then pygame.Color(font_data.get('font_color')) raises on a missing value
  let font_color ← match font_data.font_color, fgcolor with
    | some c, _ => Except.ok c
    | none, _ => Except.error PyError.valueError
  -- colorkey defaults to '#000000'; assert font_color != colorkey (→ ValueError)
  let colorkey := font_data.colorkey.getD 0
  if font_color = colorkey then throw PyError.valueError
  let font_img := font_img.set_colorkey colorkey
  let font_height : ℤ := font_img.h
  let scale ← pyScale size font_height
  -- assert 'separator_color' in font_data (→ ValueError)
  let separator_color ← match font_data.separator_color with
    | some c => Except.ok c
    | none => Except.error PyError.valueError
  -- assert presence, list-ness and len(character_order) > 1 (→ ValueError)
  let character_order ← match font_data.character_order with
    | some l => if l.length > 1 then Except.ok l else Except.error PyError.valueError
    | none => Except.error PyError.valueError
  let scanned ← scanColumns (fun x => font_img.px (x : ℤ) 0) separator_color
    character_order scale font_height (List.range font_img.w.toNat) 0 0 []
  let characters := scanned.1
  -- default_char if mapped, else character_order[0][0]
  let defaultChar ← if dictContains characters default_char then Except.ok default_char
    else match character_order with
      | [] => Except.error PyError.indexError
      | s :: _ => match s.toList with
        | [] => Except.error PyError.indexError
        | c :: _ => Except.ok c
  let font_img := match fgcolor with
    | some c => color_swap font_img font_color c
    | none => font_img
  let font_img := font_img.scale (scaleMul scale font_img.w) (scaleMul scale font_img.h)
  .ok { font_height := scaleMul scale font_height, font_img := font_img
        font_color := font_color, colorkey := colorkey, spacing := spacing
        characters := characters, default_char := defaultChar }

/-- `get_metrics`: per character, `(x, x, y, y, x, y)` with
`x = characters[char]['width'] + spacing[0]` (no substitution: an unmapped
character raises `KeyError`) and `y = font_height + spacing[1]`. -/
def BitmapFontFixedHeight.get_metrics (f : BitmapFontFixedHeight) (text : List Char) :
    Except PyError (List (ℤ × ℤ × ℤ × ℤ × ℤ × ℤ)) :=
  text.mapM (fun c => do
    let g ← match dictGet? f.characters c with
      | some g => Except.ok g
      | none => Except.error PyError.keyError
    let x := g.width + f.spacing.1
    let y := f.font_height + f.spacing.2
    .ok (x, x, y, y, x, y))

def BitmapFontFixedHeight.get_rect (f : BitmapFontFixedHeight) (text : List Char) :
    Except PyError Rect :=
  getRect f.characters f.default_char f.spacing f.font_height text

/-- The per-row composition loop of `BitmapFontFixedHeight.render`
(lines 274-294): blit each row at its alignment offset, and, when `fgcolor`
is given, run `color_swap` on the whole composed surface inside the loop.
The second component counts the `color_swap` applications. -/
def composeLoop (font_color : Color) (fgcolor : Option Color) (align : String)
    (max_width advance : ℤ) :
    List (ℕ × Surface) → Surface → ℕ → Surface × ℕ
  | [], surf, n => (surf, n)
  | (i, row) :: rest, surf, n =>
      let x_align := alignOffset align max_width row.w
      let surf := surf.blit row x_align ((i : ℤ) * advance) none
      match fgcolor with
      | some c =>
          composeLoop font_color fgcolor align max_width advance rest
            (color_swap surf font_color c) (n + 1)
      | none => composeLoop font_color fgcolor align max_width advance rest surf n

/-- `render`: assert `fgcolor != colorkey`, render each row, compose onto a
`(max_width, (font_height + spacing[1]) * rows)` surface, set the colorkey
last, and return the surface with `Rect(0, 0, max_width, height)`. -/
def BitmapFontFixedHeight.render (f : BitmapFontFixedHeight) (text : List Char)
    (fgcolor : Option Color) (align : String) : Except PyError (Surface × Rect) := do
  if fgcolor = some f.colorkey then throw PyError.assertionError
  let rows_surfaces ← (splitRows text).mapM
    (fun row => renderRow f.characters f.default_char f.spacing.1 f.font_height
      f.colorkey f.font_img row)
  let max_width := rows_surfaces.foldl (fun m s => max m s.w) 0
  let height := (f.font_height + f.spacing.2) * (rows_surfaces.length : ℤ)
  let final ← Surface.make max_width height
  let final := final.fill f.colorkey
  let final := (composeLoop f.font_color fgcolor align max_width
    (f.font_height + f.spacing.2) rows_surfaces.enum final 0).1
  let final := final.set_colorkey f.colorkey
  .ok (final, ⟨0, 0, max_width, height⟩)

/-! ## BitmapFontFreeDims (`bitmapfont_free_dims.py`) -/

structure BitmapFontFreeDims where
  font_height : ℤ
  font_img : Surface
  colorkey : Color
  spacing : ℤ × ℤ
  characters : CharDict
  default_char : Char

/-- `BitmapFontFreeDims.__init__` after I/O: `font_height` is the maximum
glyph height of the `chars` table, every table entry is copied scaled, and
`default_char` falls back to the first inserted key. -/
def BitmapFontFreeDims.init (font_data : FontData) (size : Option ℤ)
    (spacing : ℤ × ℤ) (default_char : Char) : Except PyError BitmapFontFreeDims := do
  -- font_data['font_image'] raises KeyError when absent (no assert here)
  let font_img ← match font_data.font_image with
    | some s => Except.ok s
    | none => Except.error PyError.keyError
  let colorkey := font_data.colorkey.getD 0
  let font_img := font_img.set_colorkey colorkey
  -- font_data['chars'] raises KeyError; max() of an empty table raises ValueError
  let chars ← match font_data.chars with
    | some l => Except.ok l
    | none => Except.error PyError.keyError
  let font_height ← match (chars.map (fun p => p.2.height)).max? with
    | some m => Except.ok m
    | none => Except.error PyError.valueError
  let scale ← pyScale size font_height
  let characters := chars.foldl (fun d p => dictInsert d p.1
    { x := scaleMul scale p.2.x, y := scaleMul scale p.2.y,
      width := scaleMul scale p.2.width, height := scaleMul scale p.2.height }) []
  -- default_char if mapped, else next(iter(self.characters))
  let defaultChar ← if dictContains characters default_char then Except.ok default_char
    else match characters with
      | [] => Except.error PyError.stopIteration
      | p :: _ => Except.ok p.1
  let font_img := font_img.scale (scaleMul scale font_img.w) (scaleMul scale font_img.h)
  .ok { font_height := scaleMul scale font_height, font_img := font_img
        colorkey := colorkey, spacing := spacing
        characters := characters, default_char := defaultChar }

def BitmapFontFreeDims.get_rect (g : BitmapFontFreeDims) (text : List Char) :
    Except PyError Rect :=
  getRect g.characters g.default_char g.spacing g.font_height text

/-- The composition loop of `BitmapFontFreeDims.render` (no color handling). -/
def freeComposeLoop (align : String) (max_width advance : ℤ) :
    List (ℕ × Surface) → Surface → Surface
  | [], surf => surf
  | (i, row) :: rest, surf =>
      let x_align := alignOffset align max_width row.w
      freeComposeLoop align max_width advance rest
        (surf.blit row x_align ((i : ℤ) * advance) none)

/-- `BitmapFontFreeDims.render(text, align)`: no color parameter, no
colorkey assertion, otherwise the same layout as the fixed-height variant. -/
def BitmapFontFreeDims.render (g : BitmapFontFreeDims) (text : List Char)
    (align : String) : Except PyError (Surface × Rect) := do
  let rows_surfaces ← (splitRows text).mapM
    (fun row => renderRow g.characters g.default_char g.spacing.1 g.font_height
      g.colorkey g.font_img row)
  let max_width := rows_surfaces.foldl (fun m s => max m s.w) 0
  let height := (g.font_height + g.spacing.2) * (rows_surfaces.length : ℤ)
  let final ← Surface.make max_width height
  let final := final.fill g.colorkey
  let final := freeComposeLoop align max_width (g.font_height + g.spacing.2)
    rows_surfaces.enum final
  let final := final.set_colorkey g.colorkey
  .ok (final, ⟨0, 0, max_width, height⟩)

/-- Models the Python call `font.render(text=..., fgcolor=...)` on a
`BitmapFontFreeDims` instance: the signature `render(self, text, align='LEFT')`
has no `fgcolor` parameter, so the call raises `TypeError` before the body
runs, whatever the color value is. -/
def BitmapFontFreeDims.render_with_fgcolor (g : BitmapFontFreeDims)
    (text : List Char) (fgcolor : Color) : Except PyError (Surface × Rect) :=
  .error .typeError

/-! ## The `BitmapFont` factory (`pgbitmapfont/__init__.py`, lines 106-122) -/

inductive BitmapFontInstance where
  | fixedHeight (f : BitmapFontFixedHeight)
  | freeDims (g : BitmapFontFreeDims)

/-- `BitmapFont.__new__`: dispatch on the presence of `character_order`.
The `else` branch calls `BitmapFontFreeDims.__init__(path=..., size=...,
spacing=..., fgcolor=fgcolor, default_char=...)`; that signature has no
`fgcolor` parameter, so Python raises `TypeError` before `__init__` runs. -/
def BitmapFont.new (font_data : FontData) (size : Option ℤ) (spacing : ℤ × ℤ)
    (fgcolor : Option Color) (default_char : Char) :
    Except PyError BitmapFontInstance :=
  if font_data.character_order.isSome then
    (BitmapFontFixedHeight.init font_data size fgcolor spacing default_char).map .fixedHeight
  else
    .error .typeError

/-! ## Declarative description of the fixed-height scan

`sepCols` lists the separator-colored row-0 columns; `glyphRecords` lists,
separator by separator, the records the scan writes; `trailingWidth` is the
width counter left over after the last separator. -/

/-- The columns in `[x0, x0 + n)` whose row-0 pixel is the separator color. -/
def sepCols (px0 : ℕ → Color) (separator_color : Color) (x0 n : ℕ) : List ℕ :=
  (List.range' x0 n).filter (fun x => px0 x = separator_color)

/-- The glyph records produced at the given separator positions: the glyph
closed at separator `p` starts at `start` and is `p - start` wide; every
character of the matching `character_order` entry receives it, and the next
glyph starts at `p + 1`. -/
def glyphRecords (scale : PyScale) (font_height : ℤ) :
    List ℕ → ℤ → List String → List (Char × Glyph)
  | [], _, _ => []
  | p :: ps, start, orders =>
    match orders with
    | [] => []
    | s :: rest =>
        let g : Glyph := { x := scaleMul scale start, y := 0,
                           width := scaleMul scale ((p : ℤ) - start),
                           height := scaleMul scale font_height }
        s.toList.map (fun c => (c, g)) ++ glyphRecords scale font_height ps ((p : ℤ) + 1) rest

/-- The value of the running width counter when the scan of `[x0, x0 + n)`
finishes, having started at `curw`. -/
def trailingWidth (ps : List ℕ) (x0 n curw : ℕ) : ℕ :=
  match ps.getLast? with
  | none => curw + n
  | some p => x0 + n - (p + 1)

theorem dictInsertMany_append (d : CharDict) (a b : List (Char × Glyph)) :
    dictInsertMany d (a ++ b) = dictInsertMany (dictInsertMany d a) b :=
  List.foldl_append ..

/-- The imperative column scan, described per glyph: when the separators in
view do not outnumber the remaining `character_order` entries, the scan
succeeds, its dict is the accumulated glyph records, the final character
count grows by one per separator, and the width counter holds the trailing
run. -/
theorem scanColumns_closed (px0 : ℕ → Color) (sep : Color) (order : List String)
    (scale : PyScale) (fh : ℤ) :
    ∀ (n x0 count curw : ℕ) (d : CharDict),
    (sepCols px0 sep x0 n).length + count ≤ order.length →
    scanColumns px0 sep order scale fh (List.range' x0 n) count curw d
      = .ok (dictInsertMany d
            (glyphRecords scale fh (sepCols px0 sep x0 n)
              ((x0 : ℤ) - (curw : ℤ)) (order.drop count)),
          count + (sepCols px0 sep x0 n).length,
          trailingWidth (sepCols px0 sep x0 n) x0 n curw) := by
  intro n
  induction n with
  | zero =>
      intro x0 count curw d _
      simp [sepCols, scanColumns, glyphRecords, dictInsertMany, trailingWidth]
  | succ n ih =>
      intro x0 count curw d hle
      rw [List.range'_succ]
      by_cases hx : px0 x0 = sep
      · have hsplit : sepCols px0 sep x0 (n + 1) = x0 :: sepCols px0 sep (x0 + 1) n := by
          simp [sepCols, List.range'_succ, List.filter_cons, hx]
        rw [hsplit] at hle ⊢
        have hcount : count < order.length := by
          simp only [List.length_cons] at hle
          omega
        have hs : order.get? count = some (order.get ⟨count, hcount⟩) :=
          List.get?_eq_get hcount
        simp only [scanColumns]
        rw [if_pos hx, hs]
        dsimp only
        rw [ih (x0 + 1) (count + 1) 0 _ (by simp only [List.length_cons] at hle; omega)]
        have hdrop : order.drop count = order.get ⟨count, hcount⟩ :: order.drop (count + 1) := by
          rw [← List.getElem_cons_drop order count hcount]
          simp [List.get_eq_getElem]
        rw [hdrop]
        simp only [glyphRecords, Except.ok.injEq, Prod.mk.injEq]
        refine ⟨?_, ?_, ?_⟩
        · rw [← dictInsertMany_append]
          rw [show ((x0 : ℤ) - ((x0 : ℤ) - (curw : ℤ))) = (curw : ℤ) from by ring]
          rw [show (((x0 + 1 : ℕ)) : ℤ) - (((0 : ℕ)) : ℤ) = (x0 : ℤ) + 1 from by push_cast; ring]
        · simp only [List.length_cons]
          omega
        · rcases hps : sepCols px0 sep (x0 + 1) n with _ | ⟨q, qs⟩
          · simp only [trailingWidth, List.getLast?_nil, List.getLast?_singleton]
            omega
          · simp only [trailingWidth, List.getLast?_cons_cons]
            rcases hlast : (q :: qs).getLast? with _ | p
            · rw [List.getLast?_eq_none_iff] at hlast
              exact absurd hlast (by simp)
            · dsimp only
              omega
      · have hsplit : sepCols px0 sep x0 (n + 1) = sepCols px0 sep (x0 + 1) n := by
          simp [sepCols, List.range'_succ, List.filter_cons, hx]
        rw [hsplit] at hle ⊢
        simp only [scanColumns]
        rw [if_neg hx]
        rw [ih (x0 + 1) count (curw + 1) d hle]
        rw [show (((x0 + 1 : ℕ)) : ℤ) - (((curw + 1 : ℕ)) : ℤ) = (x0 : ℤ) - (curw : ℤ)
          from by push_cast; ring]
        simp only [Except.ok.injEq, Prod.mk.injEq]
        refine ⟨trivial, trivial, ?_⟩
        rcases hps : sepCols px0 sep (x0 + 1) n with _ | ⟨q, qs⟩
        · simp only [trailingWidth, List.getLast?_nil]
          omega
        · simp only [trailingWidth]
          rcases hlast : (q :: qs).getLast? with _ | p
          · rw [List.getLast?_eq_none_iff] at hlast
            exact absurd hlast (by simp)
          · dsimp only
            omega

/-- When the separators outnumber the remaining `character_order` entries,
the scan reaches `character_order[character_count]` with the count out of
range and raises `IndexError`. -/
theorem scanColumns_overflow (px0 : ℕ → Color) (sep : Color) (order : List String)
    (scale : PyScale) (fh : ℤ) :
    ∀ (n x0 count curw : ℕ) (d : CharDict),
    count ≤ order.length →
    order.length < count + (sepCols px0 sep x0 n).length →
    scanColumns px0 sep order scale fh (List.range' x0 n) count curw d
      = .error .indexError := by
  intro n
  induction n with
  | zero =>
      intro x0 count curw d hle hlt
      simp [sepCols] at hlt
      exact absurd hle (by omega)
  | succ n ih =>
      intro x0 count curw d hle hlt
      rw [List.range'_succ]
      by_cases hx : px0 x0 = sep
      · have hsplit : sepCols px0 sep x0 (n + 1) = x0 :: sepCols px0 sep (x0 + 1) n := by
          simp [sepCols, List.range'_succ, List.filter_cons, hx]
        rw [hsplit] at hlt
        simp only [scanColumns]
        rw [if_pos hx]
        rcases Nat.eq_or_lt_of_le hle with heq | hltc
        · have hnone : order.get? count = none := by
            rw [List.get?_eq_none]
            omega
          rw [hnone]
        · have hs : order.get? count = some (order.get ⟨count, hltc⟩) :=
            List.get?_eq_get hltc
          rw [hs]
          dsimp only
          exact ih (x0 + 1) (count + 1) 0 _ (by omega)
            (by simp only [List.length_cons] at hlt; omega)
      · have hsplit : sepCols px0 sep x0 (n + 1) = sepCols px0 sep (x0 + 1) n := by
          simp [sepCols, List.range'_succ, List.filter_cons, hx]
        rw [hsplit] at hlt
        simp only [scanColumns]
        rw [if_neg hx]
        exact ih (x0 + 1) count (curw + 1) d hle hlt

theorem set_colorkey_px (s : Surface) (c : Color) (x y : ℤ) :
    (s.set_colorkey c).px x y = s.px x y := rfl

theorem set_colorkey_w (s : Surface) (c : Color) : (s.set_colorkey c).w = s.w := rfl

theorem set_colorkey_h (s : Surface) (c : Color) : (s.set_colorkey c).h = s.h := rfl

/-- Claim C1: for a font constructed with `size=None` (scale 1) from an
atlas whose number of separator-colored row-0 columns does not exceed
`len(character_order)`, the scan records, at each separator column `x`, the
rectangle `{x: x - running_width, y: 0, width: running_width, height:
atlas_height}` for every character of `character_order[glyph_index]`, then
advances the glyph index and resets the running width; non-separator
columns only increment the running width.  The constructed `characters`
dict is exactly the accumulated records (`glyphRecords`), and `font_height`
is the atlas height. -/
theorem claim_C1_fixed_height_scan
    (font_data : FontData) (img : Surface) (fc ck sep : Color) (order : List String)
    (fgcolor : Option Color) (spacing : ℤ × ℤ) (dc : Char)
    (himg : font_data.font_image = some img)
    (hfc : font_data.font_color = some fc)
    (hck : font_data.colorkey = some ck)
    (hsep : font_data.separator_color = some sep)
    (hord : font_data.character_order = some order)
    (hne : fc ≠ ck)
    (hlen : 1 < order.length)
    (hhead : (order.headD "").toList ≠ [])
    (hseps : (sepCols (fun x => img.px (x : ℤ) 0) sep 0 img.w.toNat).length
      ≤ order.length) :
    (BitmapFontFixedHeight.init font_data none fgcolor spacing dc).map
        (fun f => (f.characters, f.font_height))
      = .ok (dictInsertMany []
            (glyphRecords .one img.h
              (sepCols (fun x => img.px (x : ℤ) 0) sep 0 img.w.toNat) 0 order),
          img.h) := by
  unfold BitmapFontFixedHeight.init
  rw [himg, hfc, hck, hsep, hord]
  have hscan := scanColumns_closed (fun x => img.px (x : ℤ) 0) sep order .one img.h
    img.w.toNat 0 0 0 [] (by simpa using hseps)
  dsimp only
  simp only [bind, Except.bind, Option.getD_some]
  rw [if_neg hne]
  simp only [pyScale, bind, Except.bind, set_colorkey_px, set_colorkey_w, set_colorkey_h,
    List.range_eq_range']
  rw [if_pos hlen]
  rw [hscan]
  simp only [bind, Except.bind, List.drop_zero, Nat.cast_zero, sub_zero]
  by_cases hdc : dictContains (dictInsertMany []
      (glyphRecords PyScale.one img.h
        (sepCols (fun x => img.px (x : ℤ) 0) sep 0 img.w.toNat) 0 order)) dc = true
  · rw [if_pos hdc]
    rfl
  · rw [if_neg hdc]
    rcases order with _ | ⟨o0, rest⟩
    · simp at hlen
    · simp only [List.headD_cons] at hhead
      rcases h0 : o0.toList with _ | ⟨c0, cs⟩
      · exact absurd h0 hhead
      · simp only [h0]
        rfl

/-- Claim C8 (amended): when the separator-colored row-0 columns outnumber
the `character_order` entries, the fixed-height constructor does not ignore
the extra separators: the scan indexes `character_order[character_count]`
out of range and construction fails with an uncaught `IndexError`. -/
theorem claim_C8_extra_separators
    (font_data : FontData) (img : Surface) (fc ck sep : Color) (order : List String)
    (fgcolor : Option Color) (spacing : ℤ × ℤ) (dc : Char)
    (himg : font_data.font_image = some img)
    (hfc : font_data.font_color = some fc)
    (hck : font_data.colorkey = some ck)
    (hsep : font_data.separator_color = some sep)
    (hord : font_data.character_order = some order)
    (hne : fc ≠ ck)
    (hlen : 1 < order.length)
    (hseps : order.length
      < (sepCols (fun x => img.px (x : ℤ) 0) sep 0 img.w.toNat).length) :
    BitmapFontFixedHeight.init font_data none fgcolor spacing dc
      = .error .indexError := by
  unfold BitmapFontFixedHeight.init
  rw [himg, hfc, hck, hsep, hord]
  have hscan := scanColumns_overflow (fun x => img.px (x : ℤ) 0) sep order .one img.h
    img.w.toNat 0 0 0 [] (by omega) (by simpa using hseps)
  dsimp only
  simp only [bind, Except.bind, Option.getD_some]
  rw [if_neg hne]
  simp only [pyScale, bind, Except.bind, set_colorkey_px, set_colorkey_w, set_colorkey_h,
    List.range_eq_range']
  rw [if_pos hlen]
  rw [hscan]
  rfl

/-! ## Concrete fixtures

`atlasA`: an 8×2 atlas whose row 0 is `[1,1,9,1,1,1,9,1]` (separator color
9): glyph "Aa" is 2 columns wide at x 0, glyph "B" is 3 columns wide at
x 3, one trailing non-separator column.  `atlasExtra`: a 3×1 atlas whose
row 0 is all separators (3 separators against 2 `character_order` entries). -/

def atlasA : Surface :=
  { w := 8, h := 2,
    px := fun x y => if y = 0 then (if x = 2 ∨ x = 6 then 9 else 1) else 1,
    colorkey := none }

def fontDataA : FontData :=
  { font_image := some atlasA, font_color := some 1, colorkey := some 0,
    separator_color := some 9, character_order := some ["Aa", "B"], chars := none }

def atlasExtra : Surface :=
  { w := 3, h := 1, px := fun _ _ => 9, colorkey := none }

def fontDataExtra : FontData :=
  { font_image := some atlasExtra, font_color := some 1, colorkey := some 0,
    separator_color := some 9, character_order := some ["A", "B"], chars := none }

theorem claim_C1_fixed_height_scan_witness :
    (BitmapFontFixedHeight.init fontDataA none none (1, 1) '_').map
        (fun f => (f.characters, f.font_height))
      = .ok ([('A', ⟨0, 0, 2, 2⟩), ('a', ⟨0, 0, 2, 2⟩), ('B', ⟨3, 0, 3, 2⟩)], 2) := by
  have h := claim_C1_fixed_height_scan fontDataA atlasA 1 0 9 ["Aa", "B"] none (1, 1) '_'
    rfl rfl rfl rfl rfl (by decide) (by decide) (by decide) (by decide)
  rw [h]
  rfl

/-- Claim C8 counterexample: on a 3-separator atlas with a 2-entry
`character_order`, construction does not succeed — it raises `IndexError`
(the claim says the extra separator is ignored with no error). -/
theorem claim_C8_counterexample :
    BitmapFontFixedHeight.init fontDataExtra none none (1, 1) '_'
        = .error .indexError
      ∧ (sepCols (fun x => atlasExtra.px (x : ℤ) 0) 9 0 atlasExtra.w.toNat).length = 3
      ∧ (["A", "B"] : List String).length = 2 := by
  refine ⟨?_, by decide, by decide⟩
  rfl

theorem claim_C8_extra_separators_witness :
    BitmapFontFixedHeight.init fontDataExtra none none (1, 1) 'x'
      = .error .indexError :=
  claim_C8_extra_separators fontDataExtra atlasExtra 1 0 9 ["A", "B"] none (1, 1) 'x'
    rfl rfl rfl rfl rfl (by decide) (by decide) (by decide)

/-! ## Layout lemmas shared by the render/metrics claims -/

theorem blit_w (dest src : Surface) (dx dy : ℤ) (area : Option Rect) :
    (dest.blit src dx dy area).w = dest.w := rfl

theorem blit_h (dest src : Surface) (dx dy : ℤ) (area : Option Rect) :
    (dest.blit src dx dy area).h = dest.h := rfl

theorem blit_colorkey (dest src : Surface) (dx dy : ℤ) (area : Option Rect) :
    (dest.blit src dx dy area).colorkey = dest.colorkey := rfl

theorem fill_w (s : Surface) (c : Color) : (s.fill c).w = s.w := rfl

theorem fill_h (s : Surface) (c : Color) : (s.fill c).h = s.h := rfl

theorem except_bind_ok {ε α β : Type} {x : Except ε α} {f : α → Except ε β} {b : β}
    (h : x >>= f = .ok b) : ∃ a, x = .ok a ∧ f a = .ok b := by
  cases x with
  | error e => exact absurd h (by simp [bind, Except.bind])
  | ok a => exact ⟨a, rfl, by simpa [bind, Except.bind] using h⟩

theorem renderRowLoop_w (d : CharDict) (sp : ℤ) (img : Surface) :
    ∀ (cs : List Char) (surf : Surface) (x : ℤ),
    (renderRowLoop d sp img cs surf x).w = surf.w := by
  intro cs
  induction cs with
  | nil => intro surf x; rfl
  | cons c cs ih =>
      intro surf x
      rw [renderRowLoop]
      rcases dictGet? d c with _ | g
      · exact ih surf x
      · exact ih _ _

theorem renderRowLoop_h (d : CharDict) (sp : ℤ) (img : Surface) :
    ∀ (cs : List Char) (surf : Surface) (x : ℤ),
    (renderRowLoop d sp img cs surf x).h = surf.h := by
  intro cs
  induction cs with
  | nil => intro surf x; rfl
  | cons c cs ih =>
      intro surf x
      rw [renderRowLoop]
      rcases dictGet? d c with _ | g
      · exact ih surf x
      · exact ih _ _

/-- Successful `_render_row` inversion: the produced surface's width is the
substituted text width, its height is the font height, and both are
nonnegative (the surface allocation would have failed otherwise). -/
theorem renderRow_ok_inv (d : CharDict) (dc : Char) (sp fh : ℤ) (ck : Color)
    (img : Surface) (row : List Char) (s : Surface)
    (h : renderRow d dc sp fh ck img row = .ok s) :
    getTextWidth d sp (substituteUnsupportedChars d dc row) = .ok s.w
      ∧ s.h = fh ∧ 0 ≤ s.w ∧ 0 ≤ fh := by
  unfold renderRow at h
  obtain ⟨w, hw, h⟩ := except_bind_ok h
  obtain ⟨base, hbase, h⟩ := except_bind_ok h
  unfold Surface.make at hbase
  by_cases hpos : 0 ≤ w ∧ 0 ≤ fh
  · rw [if_pos hpos] at hbase
    obtain rfl : ({ w := w, h := fh, px := fun _ _ => 0, colorkey := none } : Surface)
        = base := by injection hbase
    simp only [Except.ok.injEq] at h
    subst h
    rw [renderRowLoop_w, renderRowLoop_h]
    exact ⟨hw, rfl, hpos.1, hpos.2⟩
  · rw [if_neg hpos] at hbase
    exact absurd hbase (by simp)

/-- Inversion of the row-rendering `mapM`: the widths `get_rect` recomputes
are exactly the widths of the rendered row surfaces. -/
theorem rowsRender_inv (d : CharDict) (dc : Char) (sp fh : ℤ) (ck : Color)
    (img : Surface) :
    ∀ (rows : List (List Char)) (l : List Surface),
    rows.mapM (fun row => renderRow d dc sp fh ck img row) = .ok l →
    rows.mapM (fun row => getTextWidth d sp (substituteUnsupportedChars d dc row))
        = .ok (l.map (fun s => s.w))
      ∧ (∀ s ∈ l, 0 ≤ s.w ∧ s.h = fh) ∧ l.length = rows.length := by
  intro rows
  induction rows with
  | nil =>
      intro l h
      simp only [List.mapM_nil] at h ⊢
      obtain rfl : ([] : List Surface) = l := by
        simpa [pure, Except.pure] using h
      simp [pure, Except.pure]
  | cons row rows ih =>
      intro l h
      simp only [List.mapM_cons] at h ⊢
      obtain ⟨s, hs, h⟩ := except_bind_ok h
      obtain ⟨tl, htl, h⟩ := except_bind_ok h
      obtain rfl : s :: tl = l := by
        simpa [pure, Except.pure] using h
      obtain ⟨hw, hh, hwpos, _⟩ := renderRow_ok_inv d dc sp fh ck img row s hs
      obtain ⟨ih1, ih2, ih3⟩ := ih tl htl
      refine ⟨?_, ?_, by simp [ih3]⟩
      · rw [hw]
        simp only [bind, Except.bind, ih1]
        simp [pure, Except.pure]
      · intro t ht
        rcases List.mem_cons.mp ht with rfl | ht
        · exact ⟨hwpos, hh⟩
        · exact ih2 t ht

theorem dictContains_iff (d : CharDict) (c : Char) :
    dictContains d c = true ↔ (dictGet? d c).isSome := by
  simp [dictContains, dictGet?, List.any_eq_true, List.find?_isSome]

theorem substitute_eq_self (d : CharDict) (dc : Char) :
    ∀ (cs : List Char), (∀ c ∈ cs, dictContains d c = true) →
    substituteUnsupportedChars d dc cs = cs := by
  intro cs
  induction cs with
  | nil => intro _; rfl
  | cons c cs ih =>
      intro hall
      unfold substituteUnsupportedChars at ih ⊢
      simp only [List.map_cons]
      rw [if_pos (hall c (by simp)), ih (fun x hx => hall x (by simp [hx]))]

theorem substitute_mapped (d : CharDict) (dc : Char) (cs : List Char)
    (hdc : dictContains d dc = true) :
    ∀ c ∈ substituteUnsupportedChars d dc cs, dictContains d c = true := by
  intro c hc
  unfold substituteUnsupportedChars at hc
  obtain ⟨a, _, rfl⟩ := List.mem_map.mp hc
  by_cases ha : dictContains d a = true
  · rwa [if_pos ha]
  · rwa [if_neg ha]

theorem sumCharWidths_eq (d : CharDict) :
    ∀ (cs : List Char), (∀ c ∈ cs, dictContains d c = true) →
    sumCharWidths d cs
      = .ok ((cs.map (fun c => ((dictGet? d c).getD ⟨0, 0, 0, 0⟩).width)).sum) := by
  intro cs
  induction cs with
  | nil => intro _; rfl
  | cons c cs ih =>
      intro hall
      obtain ⟨g, hg⟩ := Option.isSome_iff_exists.mp
        ((dictContains_iff d c).mp (hall c (by simp)))
      unfold sumCharWidths
      rw [hg]
      dsimp only
      simp only [bind, Except.bind, ih (fun x hx => hall x (by simp [hx]))]
      simp [hg]

theorem getTextWidth_eq (d : CharDict) (sp : ℤ) (cs : List Char)
    (hall : ∀ c ∈ cs, dictContains d c = true) :
    getTextWidth d sp cs
      = .ok ((cs.map (fun c => ((dictGet? d c).getD ⟨0, 0, 0, 0⟩).width)).sum
          + sp * cs.length) := by
  unfold getTextWidth
  rw [sumCharWidths_eq d cs hall]
  rfl

theorem splitRows_ne_nil (text : List Char) : splitRows text ≠ [] := by
  simpa [splitRows, List.splitOn] using
    List.splitOnP_ne_nil (fun x => x == Char.ofNat 10) text

theorem max?_cons_foldl (x : ℤ) (xs : List ℤ) (hx : 0 ≤ x) :
    (x :: xs).max? = some ((x :: xs).foldl max 0) := by
  have h1 : (x :: xs).max? = some (xs.foldl max x) := rfl
  have h2 : (x :: xs).foldl max 0 = xs.foldl max x := by
    show xs.foldl max (max 0 x) = xs.foldl max x
    rw [max_eq_right hx]
  rw [h1, h2]

theorem splitRows_single (cs : List Char) (h : Char.ofNat 10 ∉ cs) :
    splitRows cs = [cs] := by
  have hp : ∀ x ∈ cs, ¬((fun x => x == Char.ofNat 10) x = true) := by
    intro x hx hbeq
    exact h ((beq_iff_eq.mp hbeq) ▸ hx)
  simpa [splitRows, List.splitOn] using
    List.splitOnP_eq_single (fun x => x == Char.ofNat 10) cs hp

theorem render_fixed_ok_inv (f : BitmapFontFixedHeight) (text : List Char)
    (fg : Option Color) (align : String) (s : Surface) (r : Rect)
    (h : f.render text fg align = .ok (s, r)) :
    ∃ l, (splitRows text).mapM
        (fun row => renderRow f.characters f.default_char f.spacing.1 f.font_height
          f.colorkey f.font_img row) = .ok l
      ∧ r = ⟨0, 0, l.foldl (fun m t => max m t.w) 0,
          (f.font_height + f.spacing.2) * (l.length : ℤ)⟩ := by
  unfold BitmapFontFixedHeight.render at h
  by_cases hfg : fg = some f.colorkey
  · rw [if_pos hfg] at h
    exact absurd h (by simp [throw, throwThe, MonadExceptOf.throw, bind, Except.bind])
  · rw [if_neg hfg] at h
    simp only [bind, Except.bind, pure, Except.pure] at h
    obtain ⟨l, hl, h⟩ := except_bind_ok h
    obtain ⟨base, _, h⟩ := except_bind_ok h
    simp only [Except.ok.injEq, Prod.mk.injEq] at h
    exact ⟨l, hl, h.2.symm⟩

theorem render_free_ok_inv (g : BitmapFontFreeDims) (text : List Char)
    (align : String) (s : Surface) (r : Rect)
    (h : g.render text align = .ok (s, r)) :
    ∃ l, (splitRows text).mapM
        (fun row => renderRow g.characters g.default_char g.spacing.1 g.font_height
          g.colorkey g.font_img row) = .ok l
      ∧ r = ⟨0, 0, l.foldl (fun m t => max m t.w) 0,
          (g.font_height + g.spacing.2) * (l.length : ℤ)⟩ := by
  unfold BitmapFontFreeDims.render at h
  obtain ⟨l, hl, h⟩ := except_bind_ok h
  obtain ⟨base, _, h⟩ := except_bind_ok h
  simp only [Except.ok.injEq, Prod.mk.injEq] at h
  exact ⟨l, hl, h.2.symm⟩

/-- `get_rect` recomputes exactly the rectangle `render` produced: its row
widths are the rendered rows' surface widths and its `max` over them equals
`render`'s running maximum (which starts at 0, harmless since every
successfully allocated row surface has nonnegative width). -/
theorem getRect_of_rows (d : CharDict) (dc : Char) (spacing : ℤ × ℤ) (fh : ℤ)
    (ck : Color) (img : Surface) (text : List Char) (l : List Surface)
    (hl : (splitRows text).mapM (fun row => renderRow d dc spacing.1 fh ck img row)
      = .ok l) :
    getRect d dc spacing fh text
      = .ok ⟨0, 0, l.foldl (fun m t => max m t.w) 0,
          (fh + spacing.2) * ((splitRows text).length : ℤ)⟩ := by
  obtain ⟨h1, h2, h3⟩ := rowsRender_inv d dc spacing.1 fh ck img (splitRows text) l hl
  unfold getRect
  rw [h1]
  rcases l with _ | ⟨s0, ls⟩
  · exact absurd (by simpa using h3.symm) (splitRows_ne_nil text)
  · simp only [bind, Except.bind, List.map_cons]
    rw [max?_cons_foldl s0.w _ (h2 s0 (by simp)).1]
    dsimp only
    simp only [pure, Except.pure, Except.ok.injEq, Rect.mk.injEq]
    refine ⟨trivial, trivial, ?_, trivial⟩
    rw [← List.map_cons]
    rw [List.foldl_map]

theorem get_metrics_eval (f : BitmapFontFixedHeight) :
    ∀ (cs : List Char), (∀ c ∈ cs, dictContains f.characters c = true) →
    ∃ ms, f.get_metrics cs = .ok ms
      ∧ (ms.map (fun m => m.2.2.2.2.1)).sum
        = (cs.map (fun c => ((dictGet? f.characters c).getD ⟨0, 0, 0, 0⟩).width)).sum
          + f.spacing.1 * cs.length := by
  intro cs
  induction cs with
  | nil =>
      intro _
      exact ⟨[], rfl, by simp⟩
  | cons c cs ih =>
      intro hall
      obtain ⟨g, hg⟩ := Option.isSome_iff_exists.mp
        ((dictContains_iff f.characters c).mp (hall c (by simp)))
      obtain ⟨ms, hms, hsum⟩ := ih (fun x hx => hall x (by simp [hx]))
      refine ⟨(g.width + f.spacing.1, g.width + f.spacing.1,
        f.font_height + f.spacing.2, f.font_height + f.spacing.2,
        g.width + f.spacing.1, f.font_height + f.spacing.2) :: ms, ?_, ?_⟩
      · unfold BitmapFontFixedHeight.get_metrics at hms ⊢
        simp only [List.mapM_cons, hms, hg]
        rfl
      · simp only [List.map_cons, List.sum_cons, hsum, hg, Option.getD_some,
          List.length_cons]
        push_cast
        ring

/-- Claim C3: for every text (any characters, any number of line breaks)
the bounding rectangle returned by `render` equals `get_rect` exactly, on
both variants; and for a single-row fully-mapped text on the fixed-height
variant, the sum of the per-character horizontal advances of `get_metrics`
equals that width. -/
theorem claim_C3_metrics_render_agreement :
    (∀ (f : BitmapFontFixedHeight) (text : List Char) (fg : Option Color)
        (align : String) (s : Surface) (r : Rect),
      f.render text fg align = .ok (s, r) → f.get_rect text = .ok r)
    ∧ (∀ (g : BitmapFontFreeDims) (text : List Char) (align : String)
        (s : Surface) (r : Rect),
      g.render text align = .ok (s, r) → g.get_rect text = .ok r)
    ∧ (∀ (f : BitmapFontFixedHeight) (cs : List Char) (fg : Option Color)
        (align : String) (s : Surface) (r : Rect),
      Char.ofNat 10 ∉ cs →
      (∀ c ∈ cs, dictContains f.characters c = true) →
      f.render cs fg align = .ok (s, r) →
      ∃ ms, f.get_metrics cs = .ok ms
        ∧ (ms.map (fun m => m.2.2.2.2.1)).sum = r.w) := by
  refine ⟨?_, ?_, ?_⟩
  · intro f text fg align s r h
    obtain ⟨l, hl, hr⟩ := render_fixed_ok_inv f text fg align s r h
    have hlen := (rowsRender_inv f.characters f.default_char f.spacing.1 f.font_height
      f.colorkey f.font_img (splitRows text) l hl).2.2
    rw [BitmapFontFixedHeight.get_rect,
      getRect_of_rows f.characters f.default_char f.spacing f.font_height
        f.colorkey f.font_img text l hl, hr, hlen]
  · intro g text align s r h
    obtain ⟨l, hl, hr⟩ := render_free_ok_inv g text align s r h
    have hlen := (rowsRender_inv g.characters g.default_char g.spacing.1 g.font_height
      g.colorkey g.font_img (splitRows text) l hl).2.2
    rw [BitmapFontFreeDims.get_rect,
      getRect_of_rows g.characters g.default_char g.spacing g.font_height
        g.colorkey g.font_img text l hl, hr, hlen]
  · intro f cs fg align s r hnl hall h
    obtain ⟨l, hl, hr⟩ := render_fixed_ok_inv f cs fg align s r h
    rw [splitRows_single cs hnl] at hl
    simp only [List.mapM_cons, List.mapM_nil] at hl
    obtain ⟨s0, hs0, hl⟩ := except_bind_ok hl
    obtain rfl : [s0] = l := by
      simpa [bind, Except.bind, pure, Except.pure] using hl
    obtain ⟨hw, _, hwpos, _⟩ := renderRow_ok_inv f.characters f.default_char f.spacing.1
      f.font_height f.colorkey f.font_img cs s0 hs0
    rw [substitute_eq_self f.characters f.default_char cs hall,
      getTextWidth_eq f.characters f.spacing.1 cs hall] at hw
    obtain ⟨ms, hms, hsum⟩ := get_metrics_eval f cs hall
    refine ⟨ms, hms, ?_⟩
    rw [hsum, hr]
    have hs0w : s0.w
        = (cs.map (fun c => ((dictGet? f.characters c).getD ⟨0, 0, 0, 0⟩).width)).sum
          + f.spacing.1 * cs.length := by
      injection hw with h'
      exact h'.symm
    dsimp only
    rw [List.foldl_cons, List.foldl_nil]
    rw [max_eq_right hwpos, hs0w]

/-- A concrete fixed-height font: the one `BitmapFontFixedHeight.init
fontDataA none none (1, 1) '_'` builds (glyphs A/a 2 wide, B 3 wide,
spacing (1, 1), default char falls back to 'A'). -/
def fontA : BitmapFontFixedHeight :=
  { font_height := 2, font_img := atlasA.set_colorkey 0, font_color := 1, colorkey := 0,
    spacing := (1, 1),
    characters := [('A', ⟨0, 0, 2, 2⟩), ('a', ⟨0, 0, 2, 2⟩), ('B', ⟨3, 0, 3, 2⟩)],
    default_char := 'A' }

/-- A concrete free-dimension font with the same glyph table and spacing. -/
def fontB : BitmapFontFreeDims :=
  { font_height := 2, font_img := atlasA.set_colorkey 0, colorkey := 0,
    spacing := (1, 1),
    characters := [('A', ⟨0, 0, 2, 2⟩), ('B', ⟨3, 0, 3, 2⟩)],
    default_char := 'A' }

theorem claim_C3_metrics_render_agreement_witness :
    fontA.get_rect ['A'] = .ok ⟨0, 0, 3, 3⟩
      ∧ fontB.get_rect ['A'] = .ok ⟨0, 0, 3, 3⟩
      ∧ ∃ ms, fontA.get_metrics ['A'] = .ok ms
          ∧ (ms.map (fun m => m.2.2.2.2.1)).sum = (3 : ℤ) := by
  obtain ⟨s1, hs1⟩ : ∃ s, fontA.render ['A'] none "LEFT" = .ok (s, ⟨0, 0, 3, 3⟩) := ⟨_, rfl⟩
  obtain ⟨s2, hs2⟩ : ∃ s, fontB.render ['A'] "LEFT" = .ok (s, ⟨0, 0, 3, 3⟩) := ⟨_, rfl⟩
  refine ⟨claim_C3_metrics_render_agreement.1 fontA ['A'] none "LEFT" s1 _ hs1,
    claim_C3_metrics_render_agreement.2.1 fontB ['A'] "LEFT" s2 _ hs2, ?_⟩
  exact claim_C3_metrics_render_agreement.2.2 fontA ['A'] none "LEFT" s1 ⟨0, 0, 3, 3⟩
    (by decide) (by decide) hs1

/-- The width of a successful single-row fully-mapped fixed-height render:
glyph widths plus one horizontal spacing per character, trailing included. -/
theorem render_fixed_single_row_width (f : BitmapFontFixedHeight) (cs : List Char)
    (fg : Option Color) (align : String) (s : Surface) (r : Rect)
    (hnl : Char.ofNat 10 ∉ cs) (hall : ∀ c ∈ cs, dictContains f.characters c = true)
    (h : f.render cs fg align = .ok (s, r)) :
    r.w = (cs.map (fun c => ((dictGet? f.characters c).getD ⟨0, 0, 0, 0⟩).width)).sum
      + f.spacing.1 * cs.length := by
  obtain ⟨l, hl, hr⟩ := render_fixed_ok_inv f cs fg align s r h
  rw [splitRows_single cs hnl] at hl
  simp only [List.mapM_cons, List.mapM_nil] at hl
  obtain ⟨s0, hs0, hl⟩ := except_bind_ok hl
  obtain rfl : [s0] = l := by
    simpa [bind, Except.bind, pure, Except.pure] using hl
  obtain ⟨hw, _, hwpos, _⟩ := renderRow_ok_inv f.characters f.default_char f.spacing.1
    f.font_height f.colorkey f.font_img cs s0 hs0
  rw [substitute_eq_self f.characters f.default_char cs hall,
    getTextWidth_eq f.characters f.spacing.1 cs hall] at hw
  rw [hr]
  dsimp only
  rw [List.foldl_cons, List.foldl_nil, max_eq_right hwpos]
  injection hw with h'
  exact h'.symm

theorem render_free_single_row_width (g : BitmapFontFreeDims) (cs : List Char)
    (align : String) (s : Surface) (r : Rect)
    (hnl : Char.ofNat 10 ∉ cs) (hall : ∀ c ∈ cs, dictContains g.characters c = true)
    (h : g.render cs align = .ok (s, r)) :
    r.w = (cs.map (fun c => ((dictGet? g.characters c).getD ⟨0, 0, 0, 0⟩).width)).sum
      + g.spacing.1 * cs.length := by
  obtain ⟨l, hl, hr⟩ := render_free_ok_inv g cs align s r h
  rw [splitRows_single cs hnl] at hl
  simp only [List.mapM_cons, List.mapM_nil] at hl
  obtain ⟨s0, hs0, hl⟩ := except_bind_ok hl
  obtain rfl : [s0] = l := by
    simpa [bind, Except.bind, pure, Except.pure] using hl
  obtain ⟨hw, _, hwpos, _⟩ := renderRow_ok_inv g.characters g.default_char g.spacing.1
    g.font_height g.colorkey g.font_img cs s0 hs0
  rw [substitute_eq_self g.characters g.default_char cs hall,
    getTextWidth_eq g.characters g.spacing.1 cs hall] at hw
  rw [hr]
  dsimp only
  rw [List.foldl_cons, List.foldl_nil, max_eq_right hwpos]
  injection hw with h'
  exact h'.symm

/-- Claim C2 counterexample: with `fontA` (glyph widths 2 and 3, horizontal
spacing 1), `render("AB")` is 7 wide but
`render("A").width + render("B").width + spacing[0] = 3 + 4 + 1 = 8`: the
claim's concrete additivity equation fails whenever the spacing is nonzero
(the repository's tests only pass it because the factory default spacing is 0). -/
theorem claim_C2_counterexample :
    (fontA.render ['A', 'B'] none "LEFT").map Prod.snd = .ok ⟨0, 0, 7, 3⟩
      ∧ (fontA.render ['A'] none "LEFT").map Prod.snd = .ok ⟨0, 0, 3, 3⟩
      ∧ (fontA.render ['B'] none "LEFT").map Prod.snd = .ok ⟨0, 0, 4, 3⟩
      ∧ fontA.spacing.1 = 1
      ∧ (7 : ℤ) ≠ 3 + 4 + 1 :=
  ⟨rfl, rfl, rfl, rfl, by decide⟩

/-- Claim C2 (amended): for every variant and every single-row fully-mapped
string, the text width is the sum of the glyph widths plus
`horizontal_spacing × len(text)`, the spacing charged once per character
including the last; consequently the concrete additivity equation has no
extra spacing term: `render("AB").width = render("A").width +
render("B").width`, each single-character width already containing one
trailing spacing (the claim's form, with `+ spacing[0]` added, holds only
for spacing 0). -/
theorem claim_C2_trailing_spacing_width :
    (∀ (d : CharDict) (sp : ℤ) (cs : List Char),
      (∀ c ∈ cs, dictContains d c = true) →
      getTextWidth d sp cs
        = .ok ((cs.map (fun c => ((dictGet? d c).getD ⟨0, 0, 0, 0⟩).width)).sum
            + sp * cs.length))
    ∧ (∀ (f : BitmapFontFixedHeight) (fg : Option Color) (align : String) (a b : Char)
        (sa sb sab : Surface) (ra rb rab : Rect),
      a ≠ Char.ofNat 10 → b ≠ Char.ofNat 10 →
      dictContains f.characters a = true → dictContains f.characters b = true →
      f.render [a] fg align = .ok (sa, ra) →
      f.render [b] fg align = .ok (sb, rb) →
      f.render [a, b] fg align = .ok (sab, rab) →
      rab.w = ra.w + rb.w)
    ∧ (∀ (g : BitmapFontFreeDims) (align : String) (a b : Char)
        (sa sb sab : Surface) (ra rb rab : Rect),
      a ≠ Char.ofNat 10 → b ≠ Char.ofNat 10 →
      dictContains g.characters a = true → dictContains g.characters b = true →
      g.render [a] align = .ok (sa, ra) →
      g.render [b] align = .ok (sb, rb) →
      g.render [a, b] align = .ok (sab, rab) →
      rab.w = ra.w + rb.w) := by
  refine ⟨getTextWidth_eq, ?_, ?_⟩
  · intro f fg align a b sa sb sab ra rb rab hna hnb hca hcb ha hb hab
    have hwa := render_fixed_single_row_width f [a] fg align sa ra
      (by simpa using (Ne.symm hna)) (by simpa using hca) ha
    have hwb := render_fixed_single_row_width f [b] fg align sb rb
      (by simpa using (Ne.symm hnb)) (by simpa using hcb) hb
    have hwab := render_fixed_single_row_width f [a, b] fg align sab rab
      (by simp [Ne.symm hna, Ne.symm hnb]) (by simp [hca, hcb]) hab
    rw [hwa, hwb, hwab]
    simp only [List.map_cons, List.map_nil, List.sum_cons, List.sum_nil,
      List.length_cons, List.length_nil]
    push_cast
    ring
  · intro g align a b sa sb sab ra rb rab hna hnb hca hcb ha hb hab
    have hwa := render_free_single_row_width g [a] align sa ra
      (by simpa using (Ne.symm hna)) (by simpa using hca) ha
    have hwb := render_free_single_row_width g [b] align sb rb
      (by simpa using (Ne.symm hnb)) (by simpa using hcb) hb
    have hwab := render_free_single_row_width g [a, b] align sab rab
      (by simp [Ne.symm hna, Ne.symm hnb]) (by simp [hca, hcb]) hab
    rw [hwa, hwb, hwab]
    simp only [List.map_cons, List.map_nil, List.sum_cons, List.sum_nil,
      List.length_cons, List.length_nil]
    push_cast
    ring

theorem claim_C2_trailing_spacing_width_witness :
    getTextWidth fontA.characters 1 ['A', 'B'] = .ok 7
      ∧ (⟨0, 0, 7, 3⟩ : Rect).w = (⟨0, 0, 3, 3⟩ : Rect).w + (⟨0, 0, 4, 3⟩ : Rect).w := by
  obtain ⟨sa, ha⟩ : ∃ s, fontA.render ['A'] none "LEFT" = .ok (s, ⟨0, 0, 3, 3⟩) := ⟨_, rfl⟩
  obtain ⟨sb, hb⟩ : ∃ s, fontA.render ['B'] none "LEFT" = .ok (s, ⟨0, 0, 4, 3⟩) := ⟨_, rfl⟩
  obtain ⟨sab, hab⟩ : ∃ s, fontA.render ['A', 'B'] none "LEFT" = .ok (s, ⟨0, 0, 7, 3⟩) :=
    ⟨_, rfl⟩
  refine ⟨?_, ?_⟩
  · have h := claim_C2_trailing_spacing_width.1 fontA.characters 1 ['A', 'B'] (by decide)
    rw [h]
    rfl
  · exact claim_C2_trailing_spacing_width.2.1 fontA none "LEFT" 'A' 'B' sa sb sab _ _ _
      (by decide) (by decide) (by decide) (by decide) ha hb hab

theorem dictGet?_width_nonneg (d : CharDict) (hw : ∀ p ∈ d, 0 ≤ p.2.width) (c : Char) :
    0 ≤ ((dictGet? d c).getD ⟨0, 0, 0, 0⟩).width := by
  unfold dictGet?
  rcases hf : d.find? (fun p => p.1 = c) with _ | p
  · rw [hf]
    exact le_refl 0
  · rw [hf]
    exact hw p (List.mem_of_find?_eq_some hf)

theorem renderRow_ok_forward (d : CharDict) (dc : Char) (sp fh : ℤ) (ck : Color)
    (img : Surface) (row : List Char)
    (hdc : dictContains d dc = true)
    (hw : ∀ p ∈ d, 0 ≤ p.2.width) (hsp : 0 ≤ sp) (hfh : 0 ≤ fh) :
    ∃ s, renderRow d dc sp fh ck img row = .ok s := by
  have hgtw := getTextWidth_eq d sp (substituteUnsupportedChars d dc row)
    (substitute_mapped d dc row hdc)
  have hwpos : 0 ≤ ((substituteUnsupportedChars d dc row).map
      (fun c => ((dictGet? d c).getD ⟨0, 0, 0, 0⟩).width)).sum
      + sp * (substituteUnsupportedChars d dc row).length := by
    have h1 : 0 ≤ ((substituteUnsupportedChars d dc row).map
        (fun c => ((dictGet? d c).getD ⟨0, 0, 0, 0⟩).width)).sum := by
      refine List.sum_nonneg ?_
      intro x hx
      obtain ⟨c, _, rfl⟩ := List.mem_map.mp hx
      exact dictGet?_width_nonneg d hw c
    have h2 : (0 : ℤ) ≤ sp * (substituteUnsupportedChars d dc row).length :=
      mul_nonneg hsp (by positivity)
    linarith
  suffices h : ∀ W : ℤ, getTextWidth d sp (substituteUnsupportedChars d dc row) = .ok W →
      0 ≤ W → ∃ s, renderRow d dc sp fh ck img row = .ok s by
    exact h _ hgtw hwpos
  intro W hW hWpos
  refine ⟨renderRowLoop d sp img (substituteUnsupportedChars d dc row)
    (Surface.fill ⟨W, fh, fun _ _ => 0, none⟩ ck) 0, ?_⟩
  unfold renderRow
  dsimp only
  rw [hW]
  simp only [bind, Except.bind]
  unfold Surface.make
  rw [if_pos ⟨hWpos, hfh⟩]

theorem rowsRender_ok_forward (d : CharDict) (dc : Char) (sp fh : ℤ) (ck : Color)
    (img : Surface)
    (hdc : dictContains d dc = true)
    (hw : ∀ p ∈ d, 0 ≤ p.2.width) (hsp : 0 ≤ sp) (hfh : 0 ≤ fh) :
    ∀ (rows : List (List Char)),
    ∃ l, rows.mapM (fun row => renderRow d dc sp fh ck img row) = .ok l := by
  intro rows
  induction rows with
  | nil => exact ⟨[], rfl⟩
  | cons row rows ih =>
      obtain ⟨s, hs⟩ := renderRow_ok_forward d dc sp fh ck img row hdc hw hsp hfh
      obtain ⟨l, hl⟩ := ih
      refine ⟨s :: l, ?_⟩
      rw [List.mapM_cons, hs]
      simp only [bind, Except.bind, hl]
      rfl

theorem foldl_max_init (l : List Surface) : ∀ (init : ℤ),
    init ≤ l.foldl (fun m t => max m t.w) init := by
  induction l with
  | nil => intro init; exact le_refl init
  | cons s l ih =>
      intro init
      exact le_trans (le_max_left init s.w) (ih (max init s.w))

theorem render_fixed_ok_forward (f : BitmapFontFixedHeight)
    (hdc : dictContains f.characters f.default_char = true)
    (hw : ∀ p ∈ f.characters, 0 ≤ p.2.width)
    (hsp : 0 ≤ f.spacing.1) (hfh : 0 ≤ f.font_height)
    (hadv : 0 ≤ f.font_height + f.spacing.2)
    (text : List Char) (fg : Option Color) (align : String)
    (hfg : fg ≠ some f.colorkey) :
    ∃ s r, f.render text fg align = .ok (s, r) := by
  obtain ⟨l, hl⟩ := rowsRender_ok_forward f.characters f.default_char f.spacing.1
    f.font_height f.colorkey f.font_img hdc hw hsp hfh (splitRows text)
  refine ⟨((composeLoop f.font_color fg align (l.foldl (fun m t => max m t.w) 0)
      (f.font_height + f.spacing.2) l.enum
      (Surface.fill ⟨l.foldl (fun m t => max m t.w) 0,
        (f.font_height + f.spacing.2) * (l.length : ℤ), fun _ _ => 0, none⟩
        f.colorkey) 0).1).set_colorkey f.colorkey,
    ⟨0, 0, l.foldl (fun m t => max m t.w) 0,
      (f.font_height + f.spacing.2) * (l.length : ℤ)⟩, ?_⟩
  unfold BitmapFontFixedHeight.render
  rw [if_neg hfg]
  simp only [bind, Except.bind, pure, Except.pure, hl]
  unfold Surface.make
  rw [if_pos ⟨foldl_max_init l 0, mul_nonneg hadv (by positivity)⟩]

theorem render_free_ok_forward (g : BitmapFontFreeDims)
    (hdc : dictContains g.characters g.default_char = true)
    (hw : ∀ p ∈ g.characters, 0 ≤ p.2.width)
    (hsp : 0 ≤ g.spacing.1) (hfh : 0 ≤ g.font_height)
    (hadv : 0 ≤ g.font_height + g.spacing.2)
    (text : List Char) (align : String) :
    ∃ s r, g.render text align = .ok (s, r) := by
  obtain ⟨l, hl⟩ := rowsRender_ok_forward g.characters g.default_char g.spacing.1
    g.font_height g.colorkey g.font_img hdc hw hsp hfh (splitRows text)
  refine ⟨(freeComposeLoop align (l.foldl (fun m t => max m t.w) 0)
      (g.font_height + g.spacing.2) l.enum
      (Surface.fill ⟨l.foldl (fun m t => max m t.w) 0,
        (g.font_height + g.spacing.2) * (l.length : ℤ), fun _ _ => 0, none⟩
        g.colorkey)).set_colorkey g.colorkey,
    ⟨0, 0, l.foldl (fun m t => max m t.w) 0,
      (g.font_height + g.spacing.2) * (l.length : ℤ)⟩, ?_⟩
  unfold BitmapFontFreeDims.render
  simp only [bind, Except.bind, pure, Except.pure, hl]
  unfold Surface.make
  rw [if_pos ⟨foldl_max_init l 0, mul_nonneg hadv (by positivity)⟩]

/-- Claim C6 counterexample: `get_metrics` performs no `default_char`
substitution — on a constructed font, a single unmapped character makes the
call fail with `KeyError` (the claim says no public operation fails on
unmapped characters). -/
theorem claim_C6_counterexample :
    fontA.get_metrics ['x'] = .error .keyError
      ∧ dictContains fontA.characters 'x' = false :=
  ⟨rfl, by decide⟩

/-- Claim C6 (amended): `render` and `get_rect` never fail on texts with
unmapped characters — each unmapped non-line-break character is replaced by
`default_char` before layout and contributes exactly `default_char`'s glyph
width — but `get_metrics` substitutes nothing and raises `KeyError` on any
unmapped character. -/
theorem claim_C6_unmapped_substitution :
    (∀ (f : BitmapFontFixedHeight) (text : List Char),
      dictContains f.characters f.default_char = true →
      (∀ p ∈ f.characters, 0 ≤ p.2.width) →
      0 ≤ f.spacing.1 → 0 ≤ f.font_height → 0 ≤ f.font_height + f.spacing.2 →
      (∃ s r, f.render text none "LEFT" = .ok (s, r)) ∧ ∃ r2, f.get_rect text = .ok r2)
    ∧ (∀ (f : BitmapFontFixedHeight) (c : Char),
      dictContains f.characters c = false →
      c ≠ Char.ofNat 10 → f.default_char ≠ Char.ofNat 10 →
      f.get_rect [c] = f.get_rect [f.default_char])
    ∧ (∀ (f : BitmapFontFixedHeight) (c : Char),
      dictContains f.characters c = false →
      f.get_metrics [c] = .error .keyError) := by
  refine ⟨?_, ?_, ?_⟩
  · intro f text hdc hw hsp hfh hadv
    obtain ⟨l, hl⟩ := rowsRender_ok_forward f.characters f.default_char f.spacing.1
      f.font_height f.colorkey f.font_img hdc hw hsp hfh (splitRows text)
    refine ⟨render_fixed_ok_forward f hdc hw hsp hfh hadv text none "LEFT" (by simp), ?_⟩
    exact ⟨_, getRect_of_rows f.characters f.default_char f.spacing f.font_height
      f.colorkey f.font_img text l hl⟩
  · intro f c hc hcnl hdcnl
    unfold BitmapFontFixedHeight.get_rect getRect
    rw [splitRows_single [c] (by simpa using (Ne.symm hcnl)),
      splitRows_single [f.default_char] (by simpa using (Ne.symm hdcnl))]
    have hs1 : substituteUnsupportedChars f.characters f.default_char [c]
        = [f.default_char] := by
      simp [substituteUnsupportedChars, hc]
    have hs2 : substituteUnsupportedChars f.characters f.default_char [f.default_char]
        = [f.default_char] := by
      by_cases h : dictContains f.characters f.default_char = true
      · simp [substituteUnsupportedChars, h]
      · simp [substituteUnsupportedChars, h]
    simp only [List.mapM_cons, List.mapM_nil, hs1, hs2, List.length_singleton]
  · intro f c hc
    have hnone : dictGet? f.characters c = none := by
      rw [← Option.not_isSome_iff_eq_none]
      rw [← dictContains_iff]
      simp [hc]
    unfold BitmapFontFixedHeight.get_metrics
    simp only [List.mapM_cons, hnone]
    rfl

theorem claim_C6_unmapped_substitution_witness :
    (∃ s r, fontA.render ['A', 'x', 'A'] none "LEFT" = .ok (s, r))
      ∧ (∃ r2, fontA.get_rect ['A', 'x', 'A'] = .ok r2)
      ∧ fontA.get_rect ['x'] = fontA.get_rect ['A']
      ∧ fontA.get_metrics ['x'] = .error .keyError := by
  obtain ⟨h1, h2⟩ := claim_C6_unmapped_substitution.1 fontA ['A', 'x', 'A']
    (by decide) (by decide) (by decide) (by decide) (by decide)
  refine ⟨h1, h2, ?_, ?_⟩
  · exact claim_C6_unmapped_substitution.2.1 fontA 'x' (by decide) (by decide) (by decide)
  · exact claim_C6_unmapped_substitution.2.2 fontA 'x' (by decide)

theorem exists_ok_pair {ε α β : Type} (x : Except ε (α × β)) (b : β)
    (h : x.map Prod.snd = .ok b) : ∃ a, x = .ok (a, b) := by
  cases x with
  | error e => exact absurd h (by simp [Except.map])
  | ok p =>
      refine ⟨p.1, ?_⟩
      have hb : p.2 = b := by simpa [Except.map] using h
      rw [← hb]

/-- Claim C7: on both variants, rendering the empty string succeeds and
returns a bounding rectangle of width exactly 0 and height exactly one line
advance `font_height + vertical_spacing` (not zero); `get_rect("")` agrees. -/
theorem claim_C7_empty_input :
    (∀ (f : BitmapFontFixedHeight),
      0 ≤ f.font_height → 0 ≤ f.font_height + f.spacing.2 →
      (∃ s, f.render [] none "LEFT" = .ok (s, ⟨0, 0, 0, f.font_height + f.spacing.2⟩))
        ∧ f.get_rect [] = .ok ⟨0, 0, 0, f.font_height + f.spacing.2⟩)
    ∧ (∀ (g : BitmapFontFreeDims),
      0 ≤ g.font_height → 0 ≤ g.font_height + g.spacing.2 →
      (∃ s, g.render [] "LEFT" = .ok (s, ⟨0, 0, 0, g.font_height + g.spacing.2⟩))
        ∧ g.get_rect [] = .ok ⟨0, 0, 0, g.font_height + g.spacing.2⟩) := by
  have hrow : ∀ (d : CharDict) (dc : Char) (sp fh : ℤ) (ck : Color) (img : Surface),
      0 ≤ fh →
      renderRow d dc sp fh ck img []
        = .ok (Surface.fill ⟨0, fh, fun _ _ => 0, none⟩ ck) := by
    intro d dc sp fh ck img hfh
    unfold renderRow
    dsimp only
    have h1 : getTextWidth d sp (substituteUnsupportedChars d dc []) = .ok 0 := by
      show getTextWidth d sp [] = .ok 0
      unfold getTextWidth sumCharWidths
      simp [bind, Except.bind]
    rw [h1]
    simp only [bind, Except.bind]
    unfold Surface.make
    rw [if_pos ⟨le_refl 0, hfh⟩]
    rfl
  constructor
  · intro f hfh hadv
    have hmap : (splitRows []).mapM (fun row => renderRow f.characters f.default_char
        f.spacing.1 f.font_height f.colorkey f.font_img row)
        = .ok [Surface.fill ⟨0, f.font_height, fun _ _ => 0, none⟩ f.colorkey] := by
      show ([[]] : List (List Char)).mapM _ = _
      simp only [List.mapM_cons, List.mapM_nil,
        hrow f.characters f.default_char f.spacing.1 f.font_height f.colorkey
          f.font_img hfh]
      rfl
    constructor
    · refine exists_ok_pair _ _ ?_
      unfold BitmapFontFixedHeight.render
      rw [if_neg (by simp)]
      simp only [bind, Except.bind, pure, Except.pure, hmap]
      show Except.map Prod.snd (Surface.make 0 ((f.font_height + f.spacing.2) * 1)
        >>= fun final => _) = _
      unfold Surface.make
      rw [if_pos ⟨le_refl 0, by linarith⟩]
      simp only [bind, Except.bind, Except.map]
      simp only [List.length_singleton, Nat.cast_one, mul_one]
      rfl
    · have hgr := getRect_of_rows f.characters f.default_char f.spacing f.font_height
        f.colorkey f.font_img [] _ hmap
      have hfold : List.foldl (fun m t => max m t.w) 0
          [Surface.fill ⟨0, f.font_height, fun _ _ => 0, none⟩ f.colorkey] = 0 := rfl
      have hlen : (((splitRows ([] : List Char)).length : ℕ) : ℤ) = 1 := rfl
      rw [BitmapFontFixedHeight.get_rect, hgr, hfold, hlen, mul_one]
  · intro g hfh hadv
    have hmap : (splitRows []).mapM (fun row => renderRow g.characters g.default_char
        g.spacing.1 g.font_height g.colorkey g.font_img row)
        = .ok [Surface.fill ⟨0, g.font_height, fun _ _ => 0, none⟩ g.colorkey] := by
      show ([[]] : List (List Char)).mapM _ = _
      simp only [List.mapM_cons, List.mapM_nil,
        hrow g.characters g.default_char g.spacing.1 g.font_height g.colorkey
          g.font_img hfh]
      rfl
    constructor
    · refine exists_ok_pair _ _ ?_
      unfold BitmapFontFreeDims.render
      simp only [bind, Except.bind, pure, Except.pure, hmap]
      show Except.map Prod.snd (Surface.make 0 ((g.font_height + g.spacing.2) * 1)
        >>= fun final => _) = _
      unfold Surface.make
      rw [if_pos ⟨le_refl 0, by linarith⟩]
      simp only [bind, Except.bind, Except.map]
      simp only [List.length_singleton, Nat.cast_one, mul_one]
      rfl
    · have hgr := getRect_of_rows g.characters g.default_char g.spacing g.font_height
        g.colorkey g.font_img [] _ hmap
      have hfold : List.foldl (fun m t => max m t.w) 0
          [Surface.fill ⟨0, g.font_height, fun _ _ => 0, none⟩ g.colorkey] = 0 := rfl
      have hlen : (((splitRows ([] : List Char)).length : ℕ) : ℤ) = 1 := rfl
      rw [BitmapFontFreeDims.get_rect, hgr, hfold, hlen, mul_one]

/-- Witness for Claim C7: both concrete fonts render the empty string to an
empty-width, one-line-high rectangle. -/
theorem claim_C7_empty_input_witness :
    ((∃ s, fontA.render [] none "LEFT" = .ok (s, ⟨0, 0, 0, 3⟩))
        ∧ fontA.get_rect [] = .ok ⟨0, 0, 0, 3⟩)
      ∧ ((∃ s, fontB.render [] "LEFT" = .ok (s, ⟨0, 0, 0, 3⟩))
        ∧ fontB.get_rect [] = .ok ⟨0, 0, 0, 3⟩) :=
  ⟨claim_C7_empty_input.1 fontA (by decide) (by decide),
   claim_C7_empty_input.2 fontB (by decide) (by decide)⟩

/-- A valid free-dimension descriptor: no character order, a one-glyph
`chars` table over the same atlas. -/
def fontDataFree : FontData :=
  { font_image := some atlasA, font_color := none, colorkey := some 0,
    separator_color := none, character_order := none,
    chars := some [('A', ⟨0, 0, 2, 2⟩)] }

/-- Claim C4: the factory does dispatch on the presence of `character_order`,
and the fixed-height branch returns the fixed-height instance; but the
free-dimension branch never succeeds: `BitmapFont.__new__` passes
`fgcolor=` to `BitmapFontFreeDims.__init__`, whose signature has no such
parameter, so the call raises `TypeError` even on descriptors on which
`BitmapFontFreeDims.__init__` itself would succeed. -/
theorem claim_C4_factory_dispatch :
    (∀ (fd : FontData) (size : Option ℤ) (sp : ℤ × ℤ) (fg : Option Color) (dc : Char)
        (f : BitmapFontFixedHeight),
      fd.character_order.isSome = true →
      BitmapFontFixedHeight.init fd size fg sp dc = .ok f →
      BitmapFont.new fd size sp fg dc = .ok (.fixedHeight f))
    ∧ (∀ (fd : FontData) (size : Option ℤ) (sp : ℤ × ℤ) (fg : Option Color) (dc : Char)
        (g : BitmapFontFreeDims),
      fd.character_order = none →
      BitmapFontFreeDims.init fd size sp dc = .ok g →
      BitmapFont.new fd size sp fg dc = .error .typeError) := by
  constructor
  · intro fd size sp fg dc f hord hinit
    unfold BitmapFont.new
    rw [if_pos hord, hinit]
    rfl
  · intro fd size sp fg dc g hord _
    unfold BitmapFont.new
    rw [hord]
    rfl

/-- Witness for Claim C4: the factory succeeds on the fixed-height
descriptor and raises `TypeError` on the valid free-dimension descriptor. -/
theorem claim_C4_factory_dispatch_witness :
    (∃ f, BitmapFont.new fontDataA none (1, 1) none 'A' = .ok (.fixedHeight f))
      ∧ BitmapFont.new fontDataFree none (1, 1) none 'A' = .error .typeError := by
  obtain ⟨f, hf⟩ : ∃ f, BitmapFontFixedHeight.init fontDataA none none (1, 1) 'A' = .ok f :=
    ⟨_, rfl⟩
  obtain ⟨g, hg⟩ : ∃ g, BitmapFontFreeDims.init fontDataFree none (1, 1) 'A' = .ok g :=
    ⟨_, rfl⟩
  exact ⟨⟨f, claim_C4_factory_dispatch.1 fontDataA none (1, 1) none 'A' f rfl hf⟩,
    claim_C4_factory_dispatch.2 fontDataFree none (1, 1) none 'A' g rfl hg⟩

/-- Claim C5: requesting the colorkey as foreground color never returns a
buffer, but the failure mode is not a uniform contract violation: the
fixed-height `render` raises `AssertionError` from its `assert fgcolor !=
self.colorkey`, while the free-dimension `render(self, text, align)` has no
color parameter at all, so passing `fgcolor=` raises `TypeError` before any
color check can run. -/
theorem claim_C5_color_contract :
    (∀ (f : BitmapFontFixedHeight) (text : List Char) (align : String),
      f.render text (some f.colorkey) align = .error .assertionError)
    ∧ (∀ (g : BitmapFontFreeDims) (text : List Char) (c : Color),
      g.render_with_fgcolor text c = .error .typeError) := by
  constructor
  · intro f text align
    unfold BitmapFontFixedHeight.render
    rw [if_pos rfl]
    rfl
  · intro g text c
    rfl

/-- An atlas with the row-0 separator pattern of `atlasA` but 49 rows tall. -/
def atlas49 : Surface :=
  { w := 8, h := 49,
    px := fun x y => if y = 0 then (if x = 2 ∨ x = 6 then 9 else 1) else 1,
    colorkey := none }

def fontData49 : FontData :=
  { font_image := some atlas49, font_color := some 1, colorkey := some 0,
    separator_color := some 9, character_order := some ["Aa", "B"], chars := none }

/-- Counterexample to Claim C9: the descriptor with natural height 49 built
at size 1 has font_height 0, not 1: scale is the binary64 value of 1/49,
and int(49 * fl(1/49)) = 0 because 49 * fl(1/49) rounds to (2^53-1)/2^53 < 1. -/
theorem claim_C9_counterexample :
    (BitmapFontFixedHeight.init fontData49 (some 1) none (1, 1) '_').map
        (fun f => f.font_height) = .ok 0
      ∧ (0 : ℤ) ≠ 1 := by
  constructor
  · with_unfolding_all rfl
  · decide

/-- Claim C9 (amended): scale consistency holds when the natural height is a
power of two (as in the repository fixtures): for every natural height 2^k
(k up to 1000) and every positive target size N below 2^53, the computed
scale N/2^k and the re-multiplication int(2^k * scale) are exact, so the
font height comes out as exactly N. For non-power-of-two natural heights it
can drift (see the 49-row counterexample). -/
theorem claim_C9_scale_consistency (k N : ℕ) (hk : k ≤ 1000) (hN : 0 < N)
    (hNlt : N < 2 ^ 53) :
    (pyScale (some (N : ℤ)) ((2 : ℤ) ^ k)).map (fun s => scaleMul s ((2 : ℤ) ^ k))
      = .ok (N : ℤ) := by
  have h2k : ((2 : ℤ) ^ k) ≠ 0 := by positivity
  have hNQ : ((N : ℚ)) < pow2 53 := by
    rw [show pow2 53 = ((2 : ℚ) ^ 53) from by norm_num [pow2, Int.toNat]]
    exact_mod_cast hNlt
  have hdiv : (((N : ℤ) : ℚ)) / ((((2 : ℤ) ^ k : ℤ)) : ℚ) = (N : ℚ) * pow2 (-(k : ℤ)) := by
    rw [pow2_eq_zpow, zpow_neg, zpow_natCast]
    push_cast
    ring
  have hscale : roundDouble ((((N : ℤ)) : ℚ) / ((((2 : ℤ) ^ k : ℤ)) : ℚ))
      = (N : ℚ) * pow2 (-(k : ℤ)) := by
    rw [hdiv]
    exact roundDouble_fix N (-(k : ℤ)) hN hNQ (by omega) (by omega)
  have hcast : ((((2 : ℤ) ^ k : ℤ)) : ℚ) = ((1 : ℕ) : ℚ) * pow2 (k : ℤ) := by
    rw [pow2_eq_zpow, zpow_natCast]
    push_cast
    ring
  have hfix1 : roundDouble (((1 : ℕ) : ℚ) * pow2 (k : ℤ)) = ((1 : ℕ) : ℚ) * pow2 (k : ℤ) :=
    roundDouble_fix 1 (k : ℤ) (by norm_num)
      (by rw [show pow2 53 = ((2 : ℚ) ^ 53) from by norm_num [pow2, Int.toNat]]; norm_num)
      (by omega) (by omega)
  have hprod : ((1 : ℕ) : ℚ) * pow2 (k : ℤ) * ((N : ℚ) * pow2 (-(k : ℤ))) = (N : ℚ) := by
    rw [pow2_eq_zpow, pow2_eq_zpow]
    push_cast
    rw [mul_comm ((N : ℚ)) _, ← mul_assoc, one_mul,
      ← zpow_add₀ (by norm_num : (2 : ℚ) ≠ 0)]
    simp
  unfold pyScale
  dsimp only
  rw [if_neg h2k]
  simp only [Except.map]
  rw [hscale, scaleMul_flt, hcast, hfix1, hprod, roundDouble_natCast N hN hNQ]
  unfold ratTrunc
  rw [if_pos (by positivity)]
  norm_num

/-- Witness for Claim C9 amended: natural height 16 at size 32 rebuilds 32. -/
theorem claim_C9_scale_consistency_witness :
    (pyScale (some ((32 : ℕ) : ℤ)) ((2 : ℤ) ^ (4 : ℕ))).map
        (fun s => scaleMul s ((2 : ℤ) ^ (4 : ℕ))) = .ok ((32 : ℕ) : ℤ) :=
  claim_C9_scale_consistency 4 32 (by norm_num) (by norm_num) (by norm_num)

/-- The number of pieces `splitOnP` produces: one more than the number of
matching elements. -/
theorem splitOnP_length (p : Char → Bool) (text : List Char) :
    (text.splitOnP p).length = text.countP p + 1 := by
  induction text with
  | nil => rfl
  | cons a l ih =>
      rw [List.splitOnP_cons]
      by_cases h : p a
      · rw [if_pos h, List.length_cons, ih, List.countP_cons_of_pos _ _ h]
      · rw [if_neg h, List.length_modifyHead, ih, List.countP_cons_of_neg _ _ h]

/-- `text.split(chr(10))` produces one row per line-break character plus one. -/
theorem splitRows_length (text : List Char) :
    (splitRows text).length = text.count (Char.ofNat 10) + 1 :=
  splitOnP_length _ text

/-- `color_swap` returns the blitted copy, which never carries a colorkey. -/
theorem color_swap_colorkey (s : Surface) (a b : Color) :
    (color_swap s a b).colorkey = none := rfl

/-- With a foreground color, the composition loop runs `color_swap` exactly
once per row entry. -/
theorem composeLoop_count_some (fc c : Color) (align : String) (mw adv : ℤ) :
    ∀ (l : List (ℕ × Surface)) (surf : Surface) (n : ℕ),
      (composeLoop fc (some c) align mw adv l surf n).2 = n + l.length := by
  intro l
  induction l with
  | nil => intro surf n; rfl
  | cons p rest ih =>
      intro surf n
      obtain ⟨i, row⟩ := p
      rw [composeLoop]
      rw [ih]
      rw [List.length_cons]
      omega

/-- Without a foreground color, the loop never runs `color_swap`. -/
theorem composeLoop_count_none (fc : Color) (align : String) (mw adv : ℤ) :
    ∀ (l : List (ℕ × Surface)) (surf : Surface) (n : ℕ),
      (composeLoop fc none align mw adv l surf n).2 = n := by
  intro l
  induction l with
  | nil => intro surf n; rfl
  | cons p rest ih =>
      intro surf n
      obtain ⟨i, row⟩ := p
      rw [composeLoop]
      rw [ih]

/-- With a foreground color and at least one row, every surface the loop
returns has just been through `color_swap`, so it carries no colorkey yet. -/
theorem composeLoop_colorkey_some (fc c : Color) (align : String) (mw adv : ℤ) :
    ∀ (l : List (ℕ × Surface)) (surf : Surface) (n : ℕ), l ≠ [] →
      (composeLoop fc (some c) align mw adv l surf n).1.colorkey = none := by
  intro l
  induction l with
  | nil => intro surf n h; exact absurd rfl h
  | cons p rest ih =>
      intro surf n _
      obtain ⟨i, row⟩ := p
      rw [composeLoop]
      cases rest with
      | nil =>
          rw [composeLoop]
          rfl
      | cons q rest2 => exact ih _ _ (by simp)

/-- A successful fixed-height render returns a surface whose colorkey was
set (to the font colorkey) as the very last step, after the loop. -/
theorem render_fixed_colorkey (f : BitmapFontFixedHeight) (text : List Char)
    (fg : Option Color) (align : String) (s : Surface) (r : Rect)
    (h : f.render text fg align = .ok (s, r)) :
    s.colorkey = some f.colorkey := by
  unfold BitmapFontFixedHeight.render at h
  by_cases hfg : fg = some f.colorkey
  · rw [if_pos hfg] at h
    exact absurd h (by simp [throw, throwThe, MonadExceptOf.throw, bind, Except.bind])
  · rw [if_neg hfg] at h
    simp only [bind, Except.bind, pure, Except.pure] at h
    obtain ⟨l, hl, h⟩ := except_bind_ok h
    obtain ⟨base, _, h⟩ := except_bind_ok h
    simp only [Except.ok.injEq, Prod.mk.injEq] at h
    rw [← h.1]
    rfl

/-- Claim C10: in the fixed-height render with a foreground color, the
color substitution (`color_swap` replacing `font_color` with the requested
color) runs inside the per-row composition loop, once per row entry; for a
successful render that is once per row of the line-break-split text, i.e.
`n + 1` applications for `n` line-break characters. Without a foreground
color it never runs. During the loop the composed surface carries no
colorkey (each pass just came out of `color_swap`); the transparency
colorkey is set on the returned surface only after the loop finishes. -/
theorem claim_C10_per_row_color_swap :
    (∀ (fc c : Color) (align : String) (mw adv : ℤ) (l : List (ℕ × Surface))
        (surf : Surface) (n : ℕ),
      (composeLoop fc (some c) align mw adv l surf n).2 = n + l.length
        ∧ (l ≠ [] → (composeLoop fc (some c) align mw adv l surf n).1.colorkey = none))
    ∧ (∀ (fc : Color) (align : String) (mw adv : ℤ) (l : List (ℕ × Surface))
        (surf : Surface) (n : ℕ),
      (composeLoop fc none align mw adv l surf n).2 = n)
    ∧ (∀ (f : BitmapFontFixedHeight) (text : List Char) (c : Color)
        (align : String) (s : Surface) (r : Rect),
      f.render text (some c) align = .ok (s, r) →
      ∃ l, (splitRows text).mapM
          (fun row => renderRow f.characters f.default_char f.spacing.1 f.font_height
            f.colorkey f.font_img row) = .ok l
        ∧ ∀ (base : Surface) (mw adv : ℤ) (n : ℕ),
            (composeLoop f.font_color (some c) align mw adv l.enum base n).2
              = n + (text.count (Char.ofNat 10) + 1))
    ∧ (∀ (f : BitmapFontFixedHeight) (text : List Char) (fg : Option Color)
        (align : String) (s : Surface) (r : Rect),
      f.render text fg align = .ok (s, r) → s.colorkey = some f.colorkey) := by
  refine ⟨fun fc c align mw adv l surf n =>
      ⟨composeLoop_count_some fc c align mw adv l surf n,
       composeLoop_colorkey_some fc c align mw adv l surf n⟩,
    composeLoop_count_none, ?_, render_fixed_colorkey⟩
  intro f text c align s r h
  obtain ⟨l, hl, _⟩ := render_fixed_ok_inv f text (some c) align s r h
  refine ⟨l, hl, ?_⟩
  intro base mw adv n
  rw [composeLoop_count_some]
  have hlen := (rowsRender_inv _ _ _ _ _ _ _ _ hl).2.2
  rw [List.enum_length, hlen, splitRows_length]

/-- Witness for Claim C10: two rows give two swaps, no color gives none, a
two-row render of a text with one line break yields count 2, and the
returned surface has the font colorkey. -/
theorem claim_C10_per_row_color_swap_witness :
    (composeLoop 1 (some 2) "LEFT" 8 3 [(0, atlasA), (1, atlasA)] atlasA 0).2 = 0 + 2
      ∧ (composeLoop 1 (some 2) "LEFT" 8 3 [(0, atlasA)] atlasA 0).1.colorkey = none
      ∧ (composeLoop 1 none "LEFT" 8 3 [(0, atlasA)] atlasA 5).2 = 5
      ∧ (∃ l, (splitRows ['A', Char.ofNat 10, 'B']).mapM
            (fun row => renderRow fontA.characters fontA.default_char fontA.spacing.1
              fontA.font_height fontA.colorkey fontA.font_img row) = .ok l
          ∧ ∀ (base : Surface) (mw adv : ℤ) (n : ℕ),
              (composeLoop fontA.font_color (some 2) "LEFT" mw adv l.enum base n).2
                = n + ((['A', Char.ofNat 10, 'B'].count (Char.ofNat 10)) + 1))
      ∧ (fontA.render ['A'] (some 2) "LEFT").map (fun p => p.1.colorkey)
          = .ok (some fontA.colorkey) := by
  obtain ⟨⟨s, r⟩, hsr⟩ :
      ∃ p, fontA.render ['A', Char.ofNat 10, 'B'] (some 2) "LEFT" = .ok p := ⟨_, rfl⟩
  obtain ⟨⟨s1, r1⟩, h1⟩ : ∃ p, fontA.render ['A'] (some 2) "LEFT" = .ok p := ⟨_, rfl⟩
  have hc := claim_C10_per_row_color_swap.2.2.2 fontA ['A'] (some 2) "LEFT" s1 r1 h1
  refine ⟨(claim_C10_per_row_color_swap.1 1 2 "LEFT" 8 3 [(0, atlasA), (1, atlasA)]
      atlasA 0).1,
    (claim_C10_per_row_color_swap.1 1 2 "LEFT" 8 3 [(0, atlasA)] atlasA 0).2 (by simp),
    claim_C10_per_row_color_swap.2.1 1 "LEFT" 8 3 [(0, atlasA)] atlasA 5,
    claim_C10_per_row_color_swap.2.2.1 fontA ['A', Char.ofNat 10, 'B'] 2 "LEFT" s r hsr,
    ?_⟩
  rw [h1]
  simp only [Except.map]
  rw [hc]
